import Mathlib

/-!
Verification development for the mrzip repository.

The repository ships the CLI front end (`src/main.c`) and the build files;
the ZIP container engine itself (`mzip.h`, `src/lib/otezip.c`) is not part
of the source tree, so the engine's data model and operations below are
modelled from the specification (spec.md §3–§7), while the CLI functions
are embedded directly from `src/main.c`.

Bytes are modelled as natural numbers; byte files as `List Nat`.
All on-disk multi-byte integers are little-endian, stored modulo 2^16 or
2^32 exactly as the 16/32-bit ZIP fields dictate.
-/

/-- Modelled from the spec (§4.1 Checksum Engine, `mzip.h` not under src/):
one bit step of the reflected CRC-32 with polynomial 0xEDB88320. -/
def crcBitStep (s : Nat) : Nat :=
  if s % 2 = 1 then (s / 2) ^^^ 0xEDB88320 else s / 2

/-- Modelled from the spec (§4.1): process one byte — XOR it into the
state, then apply 8 bit steps. Matches the standard ZIP/PNG CRC-32. -/
def crc32Update (s b : Nat) : Nat :=
  crcBitStep^[8] (s ^^^ (b % 256))

/-- Modelled from the spec (§4.1): CRC-32 of a byte sequence with initial
value 0xFFFFFFFF and final XOR 0xFFFFFFFF, so the empty input yields 0. -/
def crc32 (data : List Nat) : Nat :=
  (data.foldl crc32Update 0xFFFFFFFF) ^^^ 0xFFFFFFFF

theorem crcBitStep_lt {s : Nat} (h : s < 2 ^ 32) : crcBitStep s < 2 ^ 32 := by
  unfold crcBitStep
  split
  · exact Nat.xor_lt_two_pow (by omega) (by norm_num)
  · omega

theorem crcBitStep_iter_lt {s : Nat} (n : Nat) (h : s < 2 ^ 32) :
    crcBitStep^[n] s < 2 ^ 32 := by
  induction n generalizing s with
  | zero => simpa using h
  | succ k ih =>
      rw [Function.iterate_succ_apply]
      exact ih (crcBitStep_lt h)

theorem xor_cancel_right_nat (a b c : Nat) (h : a ^^^ c = b ^^^ c) : a = b := by
  have h2 := congrArg (fun x => x ^^^ c) h
  simpa [Nat.xor_assoc] using h2

theorem crcBitStep_inj {a b : Nat} (ha : a < 2 ^ 32) (hb : b < 2 ^ 32)
    (h : crcBitStep a = crcBitStep b) : a = b := by
  unfold crcBitStep at h
  by_cases hpa : a % 2 = 1 <;> by_cases hpb : b % 2 = 1
  · simp [hpa, hpb] at h
    omega
  · simp [hpa, hpb] at h
    exfalso
    have hbit : ((a / 2) ^^^ 0xEDB88320).testBit 31 = true := by
      rw [Nat.testBit_xor]
      have h1 : (a / 2).testBit 31 = false :=
        Nat.testBit_lt_two_pow (by omega)
      have h2 : (0xEDB88320 : Nat).testBit 31 = true := by decide
      simp [h1, h2]
    have hbit2 : (b / 2).testBit 31 = false :=
      Nat.testBit_lt_two_pow (by omega)
    rw [h] at hbit
    simp [hbit2] at hbit
  · simp [hpa, hpb] at h
    exfalso
    have hbit : ((b / 2) ^^^ 0xEDB88320).testBit 31 = true := by
      rw [Nat.testBit_xor]
      have h1 : (b / 2).testBit 31 = false :=
        Nat.testBit_lt_two_pow (by omega)
      have h2 : (0xEDB88320 : Nat).testBit 31 = true := by decide
      simp [h1, h2]
    have hbit2 : (a / 2).testBit 31 = false :=
      Nat.testBit_lt_two_pow (by omega)
    rw [← h] at hbit
    simp [hbit2] at hbit
  · simp [hpa, hpb] at h
    omega

theorem crcBitStep_iter_inj {a b : Nat} (n : Nat) (ha : a < 2 ^ 32)
    (hb : b < 2 ^ 32) (h : crcBitStep^[n] a = crcBitStep^[n] b) : a = b := by
  induction n generalizing a b with
  | zero => simpa using h
  | succ k ih =>
      rw [Function.iterate_succ_apply, Function.iterate_succ_apply] at h
      exact crcBitStep_inj ha hb (ih (crcBitStep_lt ha) (crcBitStep_lt hb) h)

theorem crc32Update_lt {s : Nat} (b : Nat) (h : s < 2 ^ 32) :
    crc32Update s b < 2 ^ 32 := by
  unfold crc32Update
  exact crcBitStep_iter_lt 8 (Nat.xor_lt_two_pow h (by omega))

theorem crc32Update_inj_state {s t : Nat} (b : Nat) (hs : s < 2 ^ 32)
    (ht : t < 2 ^ 32) (hne : s ≠ t) : crc32Update s b ≠ crc32Update t b := by
  intro h
  unfold crc32Update at h
  have := crcBitStep_iter_inj 8 (Nat.xor_lt_two_pow hs (by omega))
    (Nat.xor_lt_two_pow ht (by omega)) h
  exact hne (xor_cancel_right_nat s t (b % 256) this)

theorem crc32Update_inj_byte {s b c : Nat} (hs : s < 2 ^ 32) (hb : b < 256)
    (hc : c < 256) (hne : b ≠ c) : crc32Update s b ≠ crc32Update s c := by
  intro h
  unfold crc32Update at h
  have hlt1 : s ^^^ b % 256 < 2 ^ 32 := Nat.xor_lt_two_pow hs (by omega)
  have hlt2 : s ^^^ c % 256 < 2 ^ 32 := Nat.xor_lt_two_pow hs (by omega)
  have heq := crcBitStep_iter_inj 8 hlt1 hlt2 h
  have hb2 : b % 256 = b := Nat.mod_eq_of_lt hb
  have hc2 : c % 256 = c := Nat.mod_eq_of_lt hc
  rw [hb2, hc2] at heq
  have h2 := congrArg (fun x => s ^^^ x) (rfl : s ^^^ b = s ^^^ b)
  have : b = c := by
    have h3 := congrArg (fun x => s ^^^ x) heq
    simpa [← Nat.xor_assoc, Nat.xor_self, Nat.zero_xor] using h3
  exact hne this

theorem foldl_crc32Update_lt (l : List Nat) {s : Nat} (hs : s < 2 ^ 32) :
    l.foldl crc32Update s < 2 ^ 32 := by
  induction l generalizing s with
  | nil => simpa using hs
  | cons b rest ih => exact ih (crc32Update_lt b hs)

theorem foldl_crc32Update_ne (l : List Nat) {s t : Nat} (hs : s < 2 ^ 32)
    (ht : t < 2 ^ 32) (hne : s ≠ t) :
    l.foldl crc32Update s ≠ l.foldl crc32Update t := by
  induction l generalizing s t with
  | nil => simpa using hne
  | cons b rest ih =>
      exact ih (crc32Update_lt b hs) (crc32Update_lt b ht)
        (crc32Update_inj_state b hs ht hne)

theorem crc32_lt (l : List Nat) : crc32 l < 2 ^ 32 :=
  Nat.xor_lt_two_pow (foldl_crc32Update_lt l (by norm_num)) (by norm_num)

/-- CRC-32 distinguishes any two byte lists that differ in exactly one byte
position (both byte values below 256). -/
theorem crc32_ne_of_single_byte_change (pre suf : List Nat) {b c : Nat}
    (hb : b < 256) (hc : c < 256) (hne : b ≠ c) :
    crc32 (pre ++ b :: suf) ≠ crc32 (pre ++ c :: suf) := by
  unfold crc32
  intro h
  have h2 := xor_cancel_right_nat _ _ 0xFFFFFFFF h
  rw [List.foldl_append, List.foldl_append] at h2
  have hs : pre.foldl crc32Update 0xFFFFFFFF < 2 ^ 32 :=
    foldl_crc32Update_lt pre (by norm_num)
  have hstep : crc32Update (pre.foldl crc32Update 0xFFFFFFFF) b ≠
      crc32Update (pre.foldl crc32Update 0xFFFFFFFF) c :=
    crc32Update_inj_byte hs hb hc hne
  exact foldl_crc32Update_ne suf (crc32Update_lt b hs) (crc32Update_lt c hs)
    hstep (by simpa using h2)

/-- Little-endian encoding of a value into 2 bytes (a 16-bit ZIP field). -/
def le2 (n : Nat) : List Nat := [n % 256, n / 256 % 256]

/-- Little-endian encoding of a value into 4 bytes (a 32-bit ZIP field). -/
def le4 (n : Nat) : List Nat :=
  [n % 256, n / 256 % 256, n / 65536 % 256, n / 16777216 % 256]

/-- Little-endian value of a byte list. -/
def leVal : List Nat → Nat
  | [] => 0
  | b :: bs => b + 256 * leVal bs

/-- The bytes of file `f` at positions `[pos, pos+len)` (shorter when the
file ends first). -/
def bytesAt (f : List Nat) (pos len : Nat) : List Nat :=
  (f.drop pos).take len

/-- Little-endian read of `w` bytes at position `pos`. -/
def readLE (f : List Nat) (pos w : Nat) : Nat :=
  leVal (bytesAt f pos w)

theorem le2_length (n : Nat) : (le2 n).length = 2 := rfl

theorem le4_length (n : Nat) : (le4 n).length = 4 := rfl

theorem leVal_le2 {n : Nat} (h : n < 65536) : leVal (le2 n) = n := by
  simp only [le2, leVal]
  omega

theorem leVal_le4 {n : Nat} (h : n < 4294967296) : leVal (le4 n) = n := by
  simp only [le4, leVal]
  omega

theorem bytesAt_append_right (xs ys : List Nat) (k n : Nat) :
    bytesAt (xs ++ ys) (xs.length + k) n = bytesAt ys k n := by
  simp [bytesAt, List.drop_append_eq_append_drop, Nat.add_comm,
    List.drop_eq_nil_of_le (by omega : xs.length ≤ k + xs.length)]

theorem bytesAt_append_left (xs ys : List Nat) {pos n : Nat}
    (h : pos + n ≤ xs.length) : bytesAt (xs ++ ys) pos n = bytesAt xs pos n := by
  simp only [bytesAt, List.drop_append_eq_append_drop,
    Nat.sub_eq_zero_of_le (by omega : pos ≤ xs.length), List.drop_zero]
  rw [List.take_append_of_le_length]
  simp
  omega

theorem bytesAt_zero (f : List Nat) (n : Nat) : bytesAt f 0 n = f.take n := by
  simp [bytesAt]

theorem bytesAt_length {f : List Nat} {pos n : Nat} (h : pos + n ≤ f.length) :
    (bytesAt f pos n).length = n := by
  simp [bytesAt]
  omega

theorem bytesAt_full (xs ys : List Nat) :
    bytesAt (xs ++ ys) xs.length ys.length = ys := by
  have h := bytesAt_append_right xs ys 0 ys.length
  simp only [Nat.add_zero] at h
  rw [h]
  simp [bytesAt]

/-- Modelled from the spec (§3 Codec capability, codec bodies not under
src/): a pure encode/decode pair; decode also receives the expected
uncompressed size and may fail. -/
structure Codec where
  encode : List Nat → List Nat
  decode : List Nat → Nat → Option (List Nat)

/-- Modelled from the spec (§4.2 Codec Registry): STORE is the identity
codec always registered at method id 0. -/
def storeCodec : Codec :=
  { encode := fun d => d
    decode := fun bs n => if bs.length = n then some bs else none }

/-- Modelled from the spec (§4.2, `src/include/config.h` feature selection
not under src/): the registry maps method 0 to STORE, method 8 to the
deflate backend when one was compiled in (`dc`), and nothing else. -/
def mkRegistry (dc : Option Codec) : Nat → Option Codec :=
  fun m => if m = 0 then some storeCodec else if m = 8 then dc else none

/-- Modelled from the spec (§7): the error taxonomy. -/
inductive ZipErr where
  | IoError
  | MalformedArchive
  | TruncatedRecord
  | UnsupportedMethod
  | IntegrityError
  | SizeOverflow
  | NotFound
deriving DecidableEq, Repr

/-- Modelled from the spec (§3 Entry.payload_source): bytes either borrowed
from the archive file at a local-header offset, or owned in memory. -/
inductive PayloadSource where
  | borrowed (localHeaderOffset : Nat)
  | owned (data : List Nat)
deriving DecidableEq, Repr

/-- Modelled from the spec (§3 Entry): one logical file in the archive. -/
structure Entry where
  name : List Nat
  method : Nat
  crc32 : Nat
  compressedSize : Nat
  uncompressedSize : Nat
  source : PayloadSource
deriving DecidableEq, Repr

/-- Modelled from the spec (§3 Archive): the directory of entries plus the
backing byte source. -/
structure Archive where
  file : List Nat
  entries : List Entry
deriving DecidableEq, Repr

/-- Signature of the End-of-Central-Directory record, 0x06054b50. -/
def eocdSig : List Nat := [0x50, 0x4b, 0x05, 0x06]

/-- Signature of a Central Directory Record, 0x02014b50. -/
def cdSig : List Nat := [0x50, 0x4b, 0x01, 0x02]

/-- Signature of a Local File Header, 0x04034b50. -/
def lfhSig : List Nat := [0x50, 0x4b, 0x03, 0x04]

/-- An entry as staged for writing: final metadata plus compressed bytes. -/
structure FinalizedEntry where
  name : List Nat
  method : Nat
  crc : Nat
  usize : Nat
  comp : List Nat
deriving DecidableEq, Repr

/-- Modelled from the spec (§4.3 Local File Header encode): signature,
fixed fields, name, empty extra field; the payload follows. -/
def lfhBytes (fe : FinalizedEntry) : List Nat :=
  lfhSig ++ (le2 20 ++ (le2 0 ++ (le2 fe.method ++ (le2 0 ++ (le2 0 ++
    (le4 fe.crc ++ (le4 fe.comp.length ++ (le4 fe.usize ++
    (le2 fe.name.length ++ (le2 0 ++ fe.name))))))))))

/-- Modelled from the spec (§4.3 Central Directory Record encode). -/
def cdrBytes (fe : FinalizedEntry) (offset : Nat) : List Nat :=
  cdSig ++ (le2 20 ++ (le2 20 ++ (le2 0 ++ (le2 fe.method ++ (le2 0 ++
    (le2 0 ++ (le4 fe.crc ++ (le4 fe.comp.length ++ (le4 fe.usize ++
    (le2 fe.name.length ++ (le2 0 ++ (le2 0 ++ (le2 0 ++ (le2 0 ++
    (le4 0 ++ (le4 offset ++ fe.name))))))))))))))))

/-- Modelled from the spec (§4.3 EOCD encode): the fixed 22-byte record
with a 0-length comment. -/
def eocdBytes (count cdSize cdOffset : Nat) : List Nat :=
  eocdSig ++ (le2 0 ++ (le2 0 ++ (le2 count ++ (le2 count ++
    (le4 cdSize ++ (le4 cdOffset ++ le2 0))))))

theorem lfhBytes_length (fe : FinalizedEntry) :
    (lfhBytes fe).length = 30 + fe.name.length := by
  simp [lfhBytes, lfhSig, le2, le4]
  omega

theorem cdrBytes_length (fe : FinalizedEntry) (off : Nat) :
    (cdrBytes fe off).length = 46 + fe.name.length := by
  simp [cdrBytes, cdSig, le2, le4]
  omega

theorem eocdBytes_length (count cdSize cdOffset : Nat) :
    (eocdBytes count cdSize cdOffset).length = 22 := by
  simp [eocdBytes, eocdSig, le2, le4]

/-- Is the EOCD signature present at position `p` of file `f`? -/
def sigAt (f : List Nat) (p : Nat) : Bool :=
  decide (bytesAt f p 4 = eocdSig)

/-- Modelled from the spec (§4.3 EOCD locate): scan positions `p, p-1, ...`
(up to `fuel` further steps) and return the first position carrying the
EOCD signature — the match closest to the end of the file. -/
def scanBack (f : List Nat) : Nat → Nat → Option Nat
  | p, 0 => if sigAt f p then some p else none
  | p, fuel + 1 => if sigAt f p then some p else scanBack f (p - 1) fuel

/-- Modelled from the spec (§4.3 EOCD locate): search backward from the
end for the EOCD signature, allowing for a trailing comment of up to
65535 bytes, i.e. a window of the last 65557 bytes of the file. -/
def zip_locate_eocd (f : List Nat) : Option Nat :=
  if f.length < 22 then none
  else scanBack f (f.length - 22) (min (f.length - 22) 65535)

/-- Modelled from the spec (§4.3 Central Directory Record decode): one
record at position `pos`; yields the entry and the position just past the
record. Declared lengths past the end of the file are `TruncatedRecord`. -/
def parseCDR (f : List Nat) (pos : Nat) : Except ZipErr (Entry × Nat) :=
  if pos + 46 ≤ f.length then
    if bytesAt f pos 4 = cdSig then
      if pos + 46 + readLE f (pos + 28) 2 + readLE f (pos + 30) 2 +
          readLE f (pos + 32) 2 ≤ f.length then
        Except.ok
          ({ name := bytesAt f (pos + 46) (readLE f (pos + 28) 2)
             method := readLE f (pos + 10) 2
             crc32 := readLE f (pos + 16) 4
             compressedSize := readLE f (pos + 20) 4
             uncompressedSize := readLE f (pos + 24) 4
             source := PayloadSource.borrowed (readLE f (pos + 42) 4) },
           pos + 46 + readLE f (pos + 28) 2 + readLE f (pos + 30) 2 +
             readLE f (pos + 32) 2)
      else Except.error ZipErr.TruncatedRecord
    else Except.error ZipErr.MalformedArchive
  else Except.error ZipErr.TruncatedRecord

/-- Modelled from the spec (§4.5 open): parse `n` contiguous Central
Directory Records starting at `pos`. -/
def parseCD (f : List Nat) : Nat → Nat → Except ZipErr (List Entry)
  | _, 0 => Except.ok []
  | pos, n + 1 =>
    match parseCDR f pos with
    | Except.error e => Except.error e
    | Except.ok (ent, next) =>
      match parseCD f next n with
      | Except.error e => Except.error e
      | Except.ok es => Except.ok (ent :: es)

/-- Modelled from the spec (§4.5 open, engine not under src/): locate the
EOCD, read the entry count and central-directory offset, and parse the
central directory into the in-memory entry table. -/
def zip_open (f : List Nat) : Except ZipErr Archive :=
  match zip_locate_eocd f with
  | none => Except.error ZipErr.MalformedArchive
  | some p =>
    match parseCD f (readLE f (p + 16) 4) (readLE f (p + 10) 2) with
    | Except.error e => Except.error e
    | Except.ok es => Except.ok { file := f, entries := es }

/-- Modelled from the spec (§6 entry_count / `zip_get_num_files` used by
src/main.c): number of entries in the directory. -/
def zip_get_num_files (a : Archive) : Nat := a.entries.length

/-- Modelled from the spec (§6 entry_name): read-only accessor for the
name of entry `i`. -/
def zip_entry_name (a : Archive) (i : Nat) : Option (List Nat) :=
  (a.entries[i]?).map (fun e => e.name)

/-- Modelled from the spec (§4.5 get_payload): re-validate the Local File
Header lazily at the entry's recorded offset and extract the compressed
bytes that follow it. -/
def readCompressed (f : List Nat) (off csize : Nat) : Except ZipErr (List Nat) :=
  if off + 30 ≤ f.length then
    if bytesAt f off 4 = lfhSig then
      if off + 30 + readLE f (off + 26) 2 + readLE f (off + 28) 2 + csize ≤
          f.length then
        Except.ok (bytesAt f
          (off + 30 + readLE f (off + 26) 2 + readLE f (off + 28) 2) csize)
      else Except.error ZipErr.TruncatedRecord
    else Except.error ZipErr.MalformedArchive
  else Except.error ZipErr.TruncatedRecord

/-- Modelled from the spec (§4.5 get_payload): dispatch the compressed
bytes through the registry codec for `m`, then validate the CRC-32 of the
decoded result against the stored value; a mismatch is `IntegrityError`,
not silently returned data. -/
def decodeCheck (dc : Option Codec) (m usize crcStored : Nat)
    (comp : List Nat) : Except ZipErr (List Nat) :=
  match mkRegistry dc m with
  | none => Except.error ZipErr.UnsupportedMethod
  | some c =>
    match c.decode comp usize with
    | none => Except.error ZipErr.IntegrityError
    | some d => if crc32 d = crcStored then Except.ok d
                else Except.error ZipErr.IntegrityError

/-- Modelled from the spec (§4.5 get_payload): a staged entry returns its
owned bytes directly; a flushed entry is read from the backing file,
decoded, and CRC-checked. -/
def zip_get_payload (dc : Option Codec) (a : Archive) (i : Nat) :
    Except ZipErr (List Nat) :=
  match a.entries[i]? with
  | none => Except.error ZipErr.NotFound
  | some e =>
    match e.source with
    | PayloadSource.owned d => Except.ok d
    | PayloadSource.borrowed off =>
      match readCompressed a.file off e.compressedSize with
      | Except.error err => Except.error err
      | Except.ok comp => decodeCheck dc e.method e.uncompressedSize e.crc32 comp

/-- Modelled from the spec (§4.5 add_entry): validate that the byte source
fits the 32-bit size fields and the name fits its 16-bit length field,
look up the codec for the requested method (`UnsupportedMethod` when it is
not registered), stage the entry with an owned buffer, and compute its
CRC-32 eagerly over the uncompressed bytes. On error the directory is
returned unchanged. -/
def zip_add_entry (dc : Option Codec) (za : Archive) (name data : List Nat)
    (method : Nat) : Archive × Option ZipErr :=
  match mkRegistry dc method with
  | none => (za, some ZipErr.UnsupportedMethod)
  | some _ =>
    if name.length < 65536 ∧ data.length < 4294967296 then
      ({ za with
          entries := za.entries ++
            [{ name := name
               method := method
               crc32 := crc32 data
               compressedSize := data.length
               uncompressedSize := data.length
               source := PayloadSource.owned data }] }, none)
    else (za, some ZipErr.SizeOverflow)

/-- Modelled from the spec (§6 add_entry) as called by src/main.c line 109:
`zip_file_add(za, base_name, src, 0)` stages the new entry (store is the
initial method) and returns its index, or fails leaving `za` unchanged. -/
def zip_file_add (dc : Option Codec) (za : Archive) (name data : List Nat) :
    Option (Archive × Nat) :=
  match zip_add_entry dc za name data 0 with
  | (za2, none) => some (za2, za.entries.length)
  | (_, some _) => none

/-- Modelled from the spec (§6 set_entry_method, valid only pre-finalize)
as called by src/main.c line 117: set the compression method of a staged
entry; fails (returning the archive unchanged) on a bad index, an
unregistered method, or an already-flushed entry. -/
def zip_set_file_compression (dc : Option Codec) (za : Archive)
    (idx m : Nat) : Archive × Bool :=
  match za.entries[idx]? with
  | none => (za, false)
  | some e =>
    match mkRegistry dc m with
    | none => (za, false)
    | some _ =>
      match e.source with
      | PayloadSource.borrowed _ => (za, false)
      | PayloadSource.owned _ =>
        ({ za with entries := za.entries.set idx { e with method := m } }, true)

/-- Modelled from the spec (§4.5 finalize): produce the final form of one
entry — an owned buffer is compressed through the registry codec; a
borrowed payload is copied verbatim from the backing file. -/
def encodeEntry (dc : Option Codec) (file : List Nat) (e : Entry) :
    Except ZipErr FinalizedEntry :=
  match e.source with
  | PayloadSource.owned d =>
    match mkRegistry dc e.method with
    | none => Except.error ZipErr.UnsupportedMethod
    | some c =>
      Except.ok { name := e.name, method := e.method, crc := e.crc32,
                  usize := e.uncompressedSize, comp := c.encode d }
  | PayloadSource.borrowed off =>
    match readCompressed file off e.compressedSize with
    | Except.error err => Except.error err
    | Except.ok comp =>
      Except.ok { name := e.name, method := e.method, crc := e.crc32,
                  usize := e.uncompressedSize, comp := comp }

/-- Length of one Local File Header plus payload chunk. -/
def chunkLen (fe : FinalizedEntry) : Nat := 30 + fe.name.length + fe.comp.length

/-- One Local File Header followed by its (possibly compressed) payload. -/
def localChunk (fe : FinalizedEntry) : List Nat := lfhBytes fe ++ fe.comp

/-- The payload section of the archive: local chunks in directory order. -/
def bodyBytes : List FinalizedEntry → List Nat
  | [] => []
  | fe :: rest => localChunk fe ++ bodyBytes rest

/-- The central directory: one record per entry, in directory order, with
the local-header offsets accumulated from `base`. -/
def cdBytes : List FinalizedEntry → Nat → List Nat
  | [], _ => []
  | fe :: rest, base => cdrBytes fe base ++ cdBytes rest (base + chunkLen fe)

/-- Do the fields of a finalized entry fit their 16/32-bit on-disk ZIP
fields? Violations are the spec's `SizeOverflow` boundary. -/
def fieldsFit (fe : FinalizedEntry) : Bool :=
  fe.name.length < 65536 && fe.method < 65536 && fe.crc < 4294967296 &&
    fe.usize < 4294967296 && fe.comp.length < 4294967296

/-- Modelled from the spec (§4.5 finalize): walk the directory in order,
write a Local File Header and payload for every entry, then the central
directory, then the EOCD with an accurate count and offsets; fail cleanly
with `SizeOverflow` when a value does not fit its on-disk field. -/
def zip_finalize (dc : Option Codec) (a : Archive) :
    Except ZipErr (List Nat) :=
  match a.entries.mapM (encodeEntry dc a.file) with
  | Except.error e => Except.error e
  | Except.ok fes =>
    if fes.length < 65536 ∧ (bodyBytes fes).length < 4294967296 ∧
        (cdBytes fes 0).length < 4294967296 ∧ fes.all fieldsFit then
      Except.ok (bodyBytes fes ++ cdBytes fes 0 ++
        eocdBytes fes.length (cdBytes fes 0).length (bodyBytes fes).length)
    else Except.error ZipErr.SizeOverflow

/-- Stage a list of (name, bytes) pairs, all with the same requested
method, aborting on the first staging error. -/
def zip_stage (dc : Option Codec) (m : Nat) :
    Archive → List (List Nat × List Nat) → Except ZipErr Archive
  | za, [] => Except.ok za
  | za, (n, d) :: rest =>
    match zip_add_entry dc za n d m with
    | (za2, none) => zip_stage dc m za2 rest
    | (_, some e) => Except.error e

/-- Modelled from the spec (§4.5, §8 Round-trip): create an archive from
scratch — stage every pair with the requested method, then finalize. -/
def zip_create (dc : Option Codec) (pairs : List (List Nat × List Nat))
    (m : Nat) : Except ZipErr (List Nat) :=
  match zip_stage dc m { file := [], entries := [] } pairs with
  | Except.error e => Except.error e
  | Except.ok za => zip_finalize dc za

/-- Embedded from src/main.c lines 93–98: `strrchr(filename, c)` — the
index of the last occurrence of `c`, if any. -/
def strrchr : List Nat → Nat → Option Nat
  | [], _ => none
  | b :: rest, c =>
    match strrchr rest c with
    | some i => some (i + 1)
    | none => if b = c then some 0 else none

/-- Embedded from src/main.c lines 93–98: the entry name used for an input
path is everything after the last `'/'` (byte 47), or the whole path when
there is none. -/
def base_name (p : List Nat) : List Nat :=
  match strrchr p 47 with
  | some i => p.drop (i + 1)
  | none => p

/-- The spec-side characterization of C10: the maximal suffix of the path
containing no `'/'` byte. -/
def suffixAfterLastSlash (p : List Nat) : List Nat :=
  (p.reverse.takeWhile (fun b => decide (b ≠ 47))).reverse

/-- One input file handed to the CLI: its path and its readable content
(`none` when `fopen`/`fread` fails). -/
structure CliFile where
  path : List Nat
  content : Option (List Nat)
deriving DecidableEq, Repr

/-- Embedded from src/main.c lines 56–122 (one iteration of the loop in
`create_or_add_files`): read the file, derive the base name, add it to the
archive, then request store compression (method 0); any per-file error is
reported and the file skipped, leaving the archive unchanged. The Bool
records whether this file was added. -/
def addOneFile (dc : Option Codec) (za : Archive) (f : CliFile) :
    Archive × Bool :=
  match f.content with
  | none => (za, false)
  | some data =>
    match zip_file_add dc za (base_name f.path) data with
    | none => (za, false)
    | some (za2, idx) => ((zip_set_file_compression dc za2 idx 0).1, true)

/-- Embedded from src/main.c lines 56–122: the whole file loop of
`create_or_add_files`. -/
def create_or_add_run (dc : Option Codec) (za : Archive)
    (files : List CliFile) : Archive :=
  files.foldl (fun z f => (addOneFile dc z f).1) za

/-- Embedded from src/main.c lines 45–127: `create_or_add_files` returns 1
only when the archive cannot be opened; otherwise it processes every file
best-effort, closes (result ignored by the caller), and returns 0. -/
def create_or_add_files (dc : Option Codec) (openRes : Option Archive)
    (files : List CliFile) : Option (Except ZipErr (List Nat)) × Nat :=
  match openRes with
  | none => (none, 1)
  | some za => (some (zip_finalize dc (create_or_add_run dc za files)), 0)

/-- How src/main.c opens the archive path: `ZIP_RDONLY`, `ZIP_CREATE |
ZIP_TRUNCATE` (create mode), or `ZIP_CREATE` alone (append mode). -/
inductive OpenMode where
  | rdonly
  | createTrunc
  | createKeep
deriving DecidableEq, Repr

/-- Modelled from the spec (§4.5 open): `zip_open` on a path — read-only
requires a readable, well-formed archive; create/truncate starts empty;
create-without-truncate parses an existing file or starts empty. -/
def zip_open_path (fs : List Nat → Option (List Nat)) (path : List Nat) :
    OpenMode → Option Archive
  | OpenMode.rdonly =>
    match fs path with
    | none => none
    | some bs => (zip_open bs).toOption
  | OpenMode.createTrunc => some { file := [], entries := [] }
  | OpenMode.createKeep =>
    match fs path with
    | none => some { file := [], entries := [] }
    | some bs => (zip_open bs).toOption

/-- Embedded from src/main.c lines 24–42: `list_files` — exit 1 when the
archive fails to open, else 0. -/
def list_files (fs : List Nat → Option (List Nat)) (path : List Nat) : Nat :=
  match zip_open_path fs path OpenMode.rdonly with
  | none => 1
  | some _ => 0

/-- Embedded from src/main.c lines 129–161: `extract_all` — exit 1 when
the archive fails to open; per-entry failures are reported and skipped,
and the function returns 0. -/
def extract_all (fs : List Nat → Option (List Nat)) (path : List Nat) : Nat :=
  match zip_open_path fs path OpenMode.rdonly with
  | none => 1
  | some _ => 0

/-- Embedded from src/main.c lines 163–205: `main` — argument dispatch
with exit 1 on usage errors, else the mode function's return value.
`args` is the full argv list (program name included). -/
def mzip_main (dc : Option Codec) (fs : List Nat → Option (List Nat))
    (args : List (List Nat)) : Nat :=
  if args.length < 3 then 1
  else
    match args[1]? with
    | none => 1
    | some fl =>
      if fl = [45, 108] then
        if args.length ≠ 3 then 1 else list_files fs (args[2]?.getD [])
      else if fl = [45, 120] then
        if args.length ≠ 3 then 1 else extract_all fs (args[2]?.getD [])
      else if fl = [45, 99] ∨ fl = [45, 97] then
        if args.length < 4 then 1
        else
          (create_or_add_files dc
            (zip_open_path fs (args[2]?.getD [])
              (if fl = [45, 99] then OpenMode.createTrunc
               else OpenMode.createKeep))
            ((args.drop 3).map (fun p => { path := p, content := fs p }))).2
      else 1

theorem bytesAt_mid (pre mid post : List Nat) (k n : Nat)
    (h : k + n ≤ mid.length) :
    bytesAt (pre ++ mid ++ post) (pre.length + k) n = bytesAt mid k n := by
  rw [List.append_assoc, bytesAt_append_right, bytesAt_append_left _ _ h]

theorem readLE_mid (pre mid post : List Nat) (k w : Nat)
    (h : k + w ≤ mid.length) :
    readLE (pre ++ mid ++ post) (pre.length + k) w = leVal (bytesAt mid k w) := by
  unfold readLE
  rw [bytesAt_mid pre mid post k w h]

theorem cdr_at_0 (fe : FinalizedEntry) (off : Nat) :
    bytesAt (cdrBytes fe off) 0 4 = cdSig := rfl

theorem cdr_at_10 (fe : FinalizedEntry) (off : Nat) :
    bytesAt (cdrBytes fe off) 10 2 = le2 fe.method := rfl

theorem cdr_at_16 (fe : FinalizedEntry) (off : Nat) :
    bytesAt (cdrBytes fe off) 16 4 = le4 fe.crc := rfl

theorem cdr_at_20 (fe : FinalizedEntry) (off : Nat) :
    bytesAt (cdrBytes fe off) 20 4 = le4 fe.comp.length := rfl

theorem cdr_at_24 (fe : FinalizedEntry) (off : Nat) :
    bytesAt (cdrBytes fe off) 24 4 = le4 fe.usize := rfl

theorem cdr_at_28 (fe : FinalizedEntry) (off : Nat) :
    bytesAt (cdrBytes fe off) 28 2 = le2 fe.name.length := rfl

theorem cdr_at_30 (fe : FinalizedEntry) (off : Nat) :
    bytesAt (cdrBytes fe off) 30 2 = le2 0 := rfl

theorem cdr_at_32 (fe : FinalizedEntry) (off : Nat) :
    bytesAt (cdrBytes fe off) 32 2 = le2 0 := rfl

theorem cdr_at_42 (fe : FinalizedEntry) (off : Nat) :
    bytesAt (cdrBytes fe off) 42 4 = le4 off := rfl

theorem cdr_name (fe : FinalizedEntry) (off : Nat) :
    bytesAt (cdrBytes fe off) 46 fe.name.length = fe.name := by
  have hdrop : (cdrBytes fe off).drop 46 = fe.name := rfl
  simp [bytesAt, hdrop]

theorem fieldsFit_bounds {fe : FinalizedEntry} (h : fieldsFit fe = true) :
    fe.name.length < 65536 ∧ fe.method < 65536 ∧ fe.crc < 4294967296 ∧
      fe.usize < 4294967296 ∧ fe.comp.length < 4294967296 := by
  simp [fieldsFit] at h
  omega

theorem parseCDR_ser (pre post : List Nat) (fe : FinalizedEntry) (off : Nat)
    (hfit : fieldsFit fe = true) (hoff : off < 4294967296) :
    parseCDR (pre ++ cdrBytes fe off ++ post) pre.length =
      Except.ok
        ({ name := fe.name, method := fe.method, crc32 := fe.crc,
           compressedSize := fe.comp.length, uncompressedSize := fe.usize,
           source := PayloadSource.borrowed off },
         pre.length + 46 + fe.name.length) := by
  obtain ⟨hnl, hm, hcrc, hus, hcl⟩ := fieldsFit_bounds hfit
  have hmidlen : (cdrBytes fe off).length = 46 + fe.name.length :=
    cdrBytes_length fe off
  have hlen : (pre ++ cdrBytes fe off ++ post).length =
      pre.length + (46 + fe.name.length) + post.length := by
    simp [hmidlen]
    omega
  have h28 : readLE (pre ++ cdrBytes fe off ++ post) (pre.length + 28) 2 =
      fe.name.length := by
    rw [readLE_mid pre _ post 28 2 (by omega), cdr_at_28, leVal_le2 hnl]
  have h30 : readLE (pre ++ cdrBytes fe off ++ post) (pre.length + 30) 2 = 0 := by
    rw [readLE_mid pre _ post 30 2 (by omega), cdr_at_30, leVal_le2 (by omega)]
  have h32 : readLE (pre ++ cdrBytes fe off ++ post) (pre.length + 32) 2 = 0 := by
    rw [readLE_mid pre _ post 32 2 (by omega), cdr_at_32, leVal_le2 (by omega)]
  have h10 : readLE (pre ++ cdrBytes fe off ++ post) (pre.length + 10) 2 =
      fe.method := by
    rw [readLE_mid pre _ post 10 2 (by omega), cdr_at_10, leVal_le2 hm]
  have h16 : readLE (pre ++ cdrBytes fe off ++ post) (pre.length + 16) 4 =
      fe.crc := by
    rw [readLE_mid pre _ post 16 4 (by omega), cdr_at_16, leVal_le4 hcrc]
  have h20 : readLE (pre ++ cdrBytes fe off ++ post) (pre.length + 20) 4 =
      fe.comp.length := by
    rw [readLE_mid pre _ post 20 4 (by omega), cdr_at_20, leVal_le4 hcl]
  have h24 : readLE (pre ++ cdrBytes fe off ++ post) (pre.length + 24) 4 =
      fe.usize := by
    rw [readLE_mid pre _ post 24 4 (by omega), cdr_at_24, leVal_le4 hus]
  have h42 : readLE (pre ++ cdrBytes fe off ++ post) (pre.length + 42) 4 =
      off := by
    rw [readLE_mid pre _ post 42 4 (by omega), cdr_at_42, leVal_le4 hoff]
  have hsig : bytesAt (pre ++ cdrBytes fe off ++ post) pre.length 4 = cdSig := by
    have := bytesAt_mid pre (cdrBytes fe off) post 0 4 (by omega)
    simpa [cdr_at_0] using this
  have hname : bytesAt (pre ++ cdrBytes fe off ++ post) (pre.length + 46)
      fe.name.length = fe.name := by
    rw [bytesAt_mid pre _ post 46 fe.name.length (by omega), cdr_name]
  unfold parseCDR
  rw [h28, h30, h32]
  rw [if_pos (by omega), hsig, if_pos rfl, if_pos (by omega)]
  rw [h10, h16, h20, h24, h42, hname]
  norm_num

/-- The entry table that `zip_open` reconstructs from a serialized archive:
each finalized entry becomes a borrowed entry at its accumulated offset. -/
def openedEntries : List FinalizedEntry → Nat → List Entry
  | [], _ => []
  | fe :: rest, base =>
    { name := fe.name, method := fe.method, crc32 := fe.crc,
      compressedSize := fe.comp.length, uncompressedSize := fe.usize,
      source := PayloadSource.borrowed base } ::
      openedEntries rest (base + chunkLen fe)

theorem localChunk_length (fe : FinalizedEntry) :
    (localChunk fe).length = chunkLen fe := by
  simp [localChunk, chunkLen, lfhBytes_length]

theorem bodyBytes_cons_length (fe : FinalizedEntry)
    (rest : List FinalizedEntry) :
    (bodyBytes (fe :: rest)).length = chunkLen fe + (bodyBytes rest).length := by
  simp [bodyBytes, localChunk_length]

theorem openedEntries_length (fes : List FinalizedEntry) (base : Nat) :
    (openedEntries fes base).length = fes.length := by
  induction fes generalizing base with
  | nil => rfl
  | cons fe rest ih => simp [openedEntries, ih]

theorem eocd_at_0 (c s o : Nat) : bytesAt (eocdBytes c s o) 0 4 = eocdSig := rfl

theorem eocd_at_10 (c s o : Nat) : bytesAt (eocdBytes c s o) 10 2 = le2 c := rfl

theorem eocd_at_16 (c s o : Nat) : bytesAt (eocdBytes c s o) 16 4 = le4 o := rfl

theorem lfh_at_0 (fe : FinalizedEntry) : bytesAt (lfhBytes fe) 0 4 = lfhSig := rfl

theorem lfh_at_26 (fe : FinalizedEntry) :
    bytesAt (lfhBytes fe) 26 2 = le2 fe.name.length := rfl

theorem lfh_at_28 (fe : FinalizedEntry) :
    bytesAt (lfhBytes fe) 28 2 = le2 0 := rfl

theorem scanBack_here {f : List Nat} {p : Nat} (fuel : Nat)
    (h : sigAt f p = true) : scanBack f p fuel = some p := by
  cases fuel <;> simp [scanBack, h]

theorem scanBack_found {f : List Nat} (fuel : Nat) (p q : Nat)
    (hq : sigAt f q = true) (hle : q ≤ p) (hfuel : p - q ≤ fuel)
    (hno : ∀ r, q < r → r ≤ p → sigAt f r = false) :
    scanBack f p fuel = some q := by
  induction fuel generalizing p with
  | zero =>
      have : p = q := by omega
      subst this
      exact scanBack_here 0 hq
  | succ k ih =>
      by_cases hpq : p = q
      · subst hpq
        exact scanBack_here (k + 1) hq
      · have hplt : sigAt f p = false := hno p (by omega) (by omega)
        simp [scanBack, hplt]
        exact ih (p - 1) (by omega) (by omega)
          (fun r h1 h2 => hno r h1 (by omega))

theorem scanBack_none {f : List Nat} (fuel : Nat) (p : Nat)
    (hno : ∀ r, p - fuel ≤ r → r ≤ p → sigAt f r = false) :
    scanBack f p fuel = none := by
  induction fuel generalizing p with
  | zero =>
      simp [scanBack, hno p (by omega) (by omega)]
  | succ k ih =>
      simp [scanBack, hno p (by omega) (by omega)]
      exact ih (p - 1) (fun r h1 h2 => hno r (by omega) (by omega))

theorem parseCD_ser (fes : List FinalizedEntry) :
    ∀ (pre post : List Nat) (base : Nat),
    fes.all fieldsFit = true →
    base + (bodyBytes fes).length < 4294967296 →
    parseCD (pre ++ cdBytes fes base ++ post) pre.length fes.length =
      Except.ok (openedEntries fes base) := by
  induction fes with
  | nil => intro pre post base hfit hb; rfl
  | cons fe rest ih =>
      intro pre post base hfit hb
      have hfit2 : fieldsFit fe = true ∧ rest.all fieldsFit = true := by
        simpa [List.all_cons] using hfit
      have hbody := bodyBytes_cons_length fe rest
      have hcdr := parseCDR_ser pre (cdBytes rest (base + chunkLen fe) ++ post)
        fe base hfit2.1 (by omega)
      have hlen2 : (pre ++ cdrBytes fe base).length =
          pre.length + 46 + fe.name.length := by
        simp [cdrBytes_length]
        omega
      have hrec := ih (pre ++ cdrBytes fe base) post (base + chunkLen fe)
        hfit2.2 (by omega)
      rw [hlen2] at hrec
      simp only [List.append_assoc] at hcdr hrec ⊢
      simp only [cdBytes, List.append_assoc]
      show parseCD _ _ (rest.length + 1) = _
      unfold parseCD
      rw [hcdr]
      simp only []
      rw [hrec]
      simp [openedEntries]

theorem bytesAt_mid2 (pre mid post : List Nat) (k n : Nat)
    (h : k + n ≤ mid.length) :
    bytesAt (pre ++ (mid ++ post)) (pre.length + k) n = bytesAt mid k n := by
  rw [← List.append_assoc]
  exact bytesAt_mid pre mid post k n h

theorem readLE_mid2 (pre mid post : List Nat) (k w : Nat)
    (h : k + w ≤ mid.length) :
    readLE (pre ++ (mid ++ post)) (pre.length + k) w = leVal (bytesAt mid k w) := by
  unfold readLE
  rw [bytesAt_mid2 pre mid post k w h]

/-- Local-header offset of entry `i` in a serialized body that starts at
file position `base`. -/
def offsetAt (fes : List FinalizedEntry) (i base : Nat) : Nat :=
  base + ((fes.take i).map chunkLen).sum

theorem offsetAt_zero (fes : List FinalizedEntry) (base : Nat) :
    offsetAt fes 0 base = base := by
  simp [offsetAt]

theorem offsetAt_succ (fe : FinalizedEntry) (rest : List FinalizedEntry)
    (i base : Nat) :
    offsetAt (fe :: rest) (i + 1) base = offsetAt rest i (base + chunkLen fe) := by
  simp [offsetAt]
  omega

theorem openedEntries_get (fes : List FinalizedEntry) :
    ∀ (base i : Nat) (fe : FinalizedEntry), fes[i]? = some fe →
    (openedEntries fes base)[i]? = some
      { name := fe.name, method := fe.method, crc32 := fe.crc,
        compressedSize := fe.comp.length, uncompressedSize := fe.usize,
        source := PayloadSource.borrowed (offsetAt fes i base) } := by
  induction fes with
  | nil => intro base i fe h; simp at h
  | cons fe0 rest ih =>
      intro base i fe h
      cases i with
      | zero =>
          simp at h
          subst h
          simp [openedEntries, offsetAt_zero]
      | succ j =>
          simp at h
          rw [offsetAt_succ]
          simpa [openedEntries] using ih (base + chunkLen fe0) j fe h

theorem readComp_head (pre tail : List Nat) (fe : FinalizedEntry)
    (hnl : fe.name.length < 65536) :
    readCompressed (pre ++ (lfhBytes fe ++ (fe.comp ++ tail))) pre.length
      fe.comp.length = Except.ok fe.comp := by
  have hlfh : (lfhBytes fe).length = 30 + fe.name.length := lfhBytes_length fe
  have hlen : (pre ++ (lfhBytes fe ++ (fe.comp ++ tail))).length =
      pre.length + (30 + fe.name.length) + fe.comp.length + tail.length := by
    simp [hlfh]
    omega
  have h26 : readLE (pre ++ (lfhBytes fe ++ (fe.comp ++ tail)))
      (pre.length + 26) 2 = fe.name.length := by
    rw [readLE_mid2 pre _ _ 26 2 (by omega), lfh_at_26, leVal_le2 hnl]
  have h28 : readLE (pre ++ (lfhBytes fe ++ (fe.comp ++ tail)))
      (pre.length + 28) 2 = 0 := by
    rw [readLE_mid2 pre _ _ 28 2 (by omega), lfh_at_28, leVal_le2 (by omega)]
  have hsig : bytesAt (pre ++ (lfhBytes fe ++ (fe.comp ++ tail)))
      pre.length 4 = lfhSig := by
    have := bytesAt_mid2 pre (lfhBytes fe) (fe.comp ++ tail) 0 4 (by omega)
    simpa [lfh_at_0] using this
  have hextract : bytesAt (pre ++ (lfhBytes fe ++ (fe.comp ++ tail)))
      (pre.length + 30 + fe.name.length + 0) fe.comp.length = fe.comp := by
    have hsplit : pre ++ (lfhBytes fe ++ (fe.comp ++ tail)) =
        (pre ++ lfhBytes fe) ++ (fe.comp ++ tail) := by
      simp [List.append_assoc]
    have hpos : pre.length + 30 + fe.name.length + 0 =
        (pre ++ lfhBytes fe).length + 0 := by
      simp [hlfh]
      omega
    rw [hsplit, hpos, bytesAt_append_right]
    unfold bytesAt
    rw [List.drop_zero, List.take_append_of_le_length (le_refl _),
      List.take_length]
  unfold readCompressed
  rw [h26, h28]
  rw [if_pos (by omega), hsig, if_pos rfl, if_pos (by omega), hextract]

theorem readComp_ser (fes : List FinalizedEntry) :
    ∀ (pre post : List Nat) (i : Nat) (fe : FinalizedEntry),
    fes[i]? = some fe → fes.all fieldsFit = true →
    readCompressed (pre ++ bodyBytes fes ++ post) (offsetAt fes i pre.length)
      fe.comp.length = Except.ok fe.comp := by
  induction fes with
  | nil => intro pre post i fe h _; simp at h
  | cons fe0 rest ih =>
      intro pre post i fe h hfit
      have hfit2 : fieldsFit fe0 = true ∧ rest.all fieldsFit = true := by
        simpa [List.all_cons] using hfit
      cases i with
      | zero =>
          simp at h
          subst h
          rw [offsetAt_zero]
          have hshape : pre ++ bodyBytes (fe0 :: rest) ++ post =
              pre ++ (lfhBytes fe0 ++ (fe0.comp ++ (bodyBytes rest ++ post))) := by
            simp [bodyBytes, localChunk, List.append_assoc]
          rw [hshape]
          exact readComp_head pre (bodyBytes rest ++ post) fe0
            (fieldsFit_bounds hfit2.1).1
      | succ j =>
          simp at h
          rw [offsetAt_succ]
          have hshape : pre ++ bodyBytes (fe0 :: rest) ++ post =
              (pre ++ localChunk fe0) ++ bodyBytes rest ++ post := by
            simp [bodyBytes, List.append_assoc]
          have hplen : (pre ++ localChunk fe0).length =
              pre.length + chunkLen fe0 := by
            simp [localChunk_length]
          rw [hshape, ← hplen]
          exact ih (pre ++ localChunk fe0) post j fe h hfit2.2

theorem zip_open_finalized (fes : List FinalizedEntry)
    (hfit : fes.all fieldsFit = true) (hcount : fes.length < 65536)
    (hbody : (bodyBytes fes).length < 4294967296)
    (hcd : (cdBytes fes 0).length < 4294967296) :
    zip_open (bodyBytes fes ++ cdBytes fes 0 ++
        eocdBytes fes.length (cdBytes fes 0).length (bodyBytes fes).length) =
      Except.ok
        { file := bodyBytes fes ++ cdBytes fes 0 ++
            eocdBytes fes.length (cdBytes fes 0).length (bodyBytes fes).length,
          entries := openedEntries fes 0 } := by
  have hElen : (eocdBytes fes.length (cdBytes fes 0).length
      (bodyBytes fes).length).length = 22 := eocdBytes_length _ _ _
  have hFlen : (bodyBytes fes ++ cdBytes fes 0 ++
      eocdBytes fes.length (cdBytes fes 0).length (bodyBytes fes).length).length =
      (bodyBytes fes ++ cdBytes fes 0).length + 22 := by
    rw [List.length_append (bodyBytes fes ++ cdBytes fes 0), hElen]
  have hsigv : bytesAt (bodyBytes fes ++ cdBytes fes 0 ++
      eocdBytes fes.length (cdBytes fes 0).length (bodyBytes fes).length)
      (bodyBytes fes ++ cdBytes fes 0).length 4 = eocdSig := by
    have h := bytesAt_append_right (bodyBytes fes ++ cdBytes fes 0)
      (eocdBytes fes.length (cdBytes fes 0).length (bodyBytes fes).length) 0 4
    rw [Nat.add_zero] at h
    rw [h]
    exact eocd_at_0 _ _ _
  have hsig : sigAt (bodyBytes fes ++ cdBytes fes 0 ++
      eocdBytes fes.length (cdBytes fes 0).length (bodyBytes fes).length)
      (bodyBytes fes ++ cdBytes fes 0).length = true := by
    unfold sigAt
    rw [hsigv]
    simp
  have hloc : zip_locate_eocd (bodyBytes fes ++ cdBytes fes 0 ++
      eocdBytes fes.length (cdBytes fes 0).length (bodyBytes fes).length) =
      some (bodyBytes fes ++ cdBytes fes 0).length := by
    unfold zip_locate_eocd
    rw [if_neg (by omega)]
    rw [show (bodyBytes fes ++ cdBytes fes 0 ++
      eocdBytes fes.length (cdBytes fes 0).length (bodyBytes fes).length).length
      - 22 = (bodyBytes fes ++ cdBytes fes 0).length from by omega]
    exact scanBack_here _ hsig
  have h10 : readLE (bodyBytes fes ++ cdBytes fes 0 ++
      eocdBytes fes.length (cdBytes fes 0).length (bodyBytes fes).length)
      ((bodyBytes fes ++ cdBytes fes 0).length + 10) 2 = fes.length := by
    unfold readLE
    rw [bytesAt_append_right (bodyBytes fes ++ cdBytes fes 0) _ 10 2,
      eocd_at_10, leVal_le2 hcount]
  have h16 : readLE (bodyBytes fes ++ cdBytes fes 0 ++
      eocdBytes fes.length (cdBytes fes 0).length (bodyBytes fes).length)
      ((bodyBytes fes ++ cdBytes fes 0).length + 16) 4 =
      (bodyBytes fes).length := by
    unfold readLE
    rw [bytesAt_append_right (bodyBytes fes ++ cdBytes fes 0) _ 16 4,
      eocd_at_16, leVal_le4 hbody]
  have hparse : parseCD (bodyBytes fes ++ cdBytes fes 0 ++
      eocdBytes fes.length (cdBytes fes 0).length (bodyBytes fes).length)
      (bodyBytes fes).length fes.length = Except.ok (openedEntries fes 0) :=
    parseCD_ser fes (bodyBytes fes) _ 0 hfit (by omega)
  simp only [zip_open, hloc]
  rw [h16, h10, hparse]

theorem finalize_inv (dc : Option Codec) (a : Archive) (F : List Nat)
    (h : zip_finalize dc a = Except.ok F) :
    ∃ fes, a.entries.mapM (encodeEntry dc a.file) = Except.ok fes ∧
      fes.all fieldsFit = true ∧ fes.length < 65536 ∧
      (bodyBytes fes).length < 4294967296 ∧
      (cdBytes fes 0).length < 4294967296 ∧
      F = bodyBytes fes ++ cdBytes fes 0 ++
        eocdBytes fes.length (cdBytes fes 0).length (bodyBytes fes).length := by
  unfold zip_finalize at h
  split at h
  · cases h
  · rename_i fes hm
    split at h
    · rename_i hC
      refine ⟨fes, hm, hC.2.2.2, hC.1, hC.2.1, hC.2.2.1, ?_⟩
      cases h
      rfl
    · cases h

theorem getPayload_finalized (dc : Option Codec) (fes : List FinalizedEntry)
    (hfit : fes.all fieldsFit = true) (i : Nat) (fe : FinalizedEntry)
    (hi : fes[i]? = some fe) (tail : List Nat) :
    zip_get_payload dc
      { file := bodyBytes fes ++ tail, entries := openedEntries fes 0 } i =
      decodeCheck dc fe.method fe.usize fe.crc fe.comp := by
  have hget := openedEntries_get fes 0 i fe hi
  have hrc := readComp_ser fes [] tail i fe hi hfit
  simp only [List.nil_append, List.length_nil] at hrc
  simp only [zip_get_payload, hget, hrc]

/-- The entry staged by `zip_add_entry` for a (name, bytes) pair. -/
def stagedEntry (m : Nat) (p : List Nat × List Nat) : Entry :=
  { name := p.1, method := m, crc32 := crc32 p.2, compressedSize := p.2.length,
    uncompressedSize := p.2.length, source := PayloadSource.owned p.2 }

/-- The finalized form of a staged pair under codec `c`. -/
def finEntry (m : Nat) (c : Codec) (p : List Nat × List Nat) : FinalizedEntry :=
  { name := p.1, method := m, crc := crc32 p.2, usize := p.2.length,
    comp := c.encode p.2 }

theorem zip_add_entry_ok (dc : Option Codec) (za : Archive)
    (name data : List Nat) (m : Nat) (za2 : Archive)
    (h : zip_add_entry dc za name data m = (za2, none)) :
    (∃ c, mkRegistry dc m = some c) ∧ name.length < 65536 ∧
      data.length < 4294967296 ∧
      za2 = { za with entries := za.entries ++ [stagedEntry m (name, data)] } := by
  unfold zip_add_entry at h
  split at h
  · cases h
  · rename_i c hc
    split at h
    · rename_i hsz
      cases h
      exact ⟨⟨c, hc⟩, hsz.1, hsz.2, rfl⟩
    · cases h

theorem zip_stage_entries (dc : Option Codec) (m : Nat)
    (pairs : List (List Nat × List Nat)) :
    ∀ za za2, zip_stage dc m za pairs = Except.ok za2 →
    za2.file = za.file ∧
      za2.entries = za.entries ++ pairs.map (stagedEntry m) := by
  induction pairs with
  | nil =>
      intro za za2 h
      cases h
      simp
  | cons p rest ih =>
      intro za za2 h
      obtain ⟨n, d⟩ := p
      unfold zip_stage at h
      split at h
      · rename_i za1 hadd
        obtain ⟨_, _, _, hza1⟩ := zip_add_entry_ok dc za n d m za1 hadd
        obtain ⟨hfile, hentries⟩ := ih za1 za2 h
        subst hza1
        constructor
        · simpa using hfile
        · simpa [List.append_assoc] using hentries
      · cases h

theorem encodeEntry_owned (dc : Option Codec) (file : List Nat) (m : Nat)
    (c : Codec) (hc : mkRegistry dc m = some c) (p : List Nat × List Nat) :
    encodeEntry dc file (stagedEntry m p) = Except.ok (finEntry m c p) := by
  simp only [encodeEntry, stagedEntry, finEntry, hc]

theorem mapM_encode_staged (dc : Option Codec) (file : List Nat) (m : Nat)
    (c : Codec) (hc : mkRegistry dc m = some c)
    (pairs : List (List Nat × List Nat)) :
    (pairs.map (stagedEntry m)).mapM (encodeEntry dc file) =
      Except.ok (pairs.map (finEntry m c)) := by
  induction pairs with
  | nil => rfl
  | cons p rest ih =>
      simp only [List.map_cons, List.mapM_cons, encodeEntry_owned dc file m c hc,
        ih]
      rfl

theorem decodeCheck_lossless (dc : Option Codec) (m : Nat) (c : Codec)
    (d : List Nat) (hc : mkRegistry dc m = some c)
    (hl : c.decode (c.encode d) d.length = some d) :
    decodeCheck dc m d.length (crc32 d) (c.encode d) = Except.ok d := by
  simp [decodeCheck, hc, hl]

theorem storeCodec_lossless (d : List Nat) :
    storeCodec.decode (storeCodec.encode d) d.length = some d := by
  simp [storeCodec]

instance exceptDecEq {ε α : Type} [DecidableEq ε] [DecidableEq α] :
    DecidableEq (Except ε α) := fun a b =>
  match a, b with
  | Except.error e1, Except.error e2 =>
    if h : e1 = e2 then isTrue (by rw [h])
    else isFalse (by intro hh; cases hh; exact h rfl)
  | Except.error _, Except.ok _ => isFalse (by intro hh; cases hh)
  | Except.ok _, Except.error _ => isFalse (by intro hh; cases hh)
  | Except.ok a1, Except.ok a2 =>
    if h : a1 = a2 then isTrue (by rw [h])
    else isFalse (by intro hh; cases hh; exact h rfl)

/-- C1: for any finite list of (name, bytes) pairs with pairwise-unique
names, `zip_create` followed by `zip_open` and `zip_get_payload` on every
index returns exactly the original bytes of each pair, and the entry names
match, for every compression method whose registered codec is lossless —
in particular for store (method 0, always registered) and for deflate
(method 8) whenever a deflate backend is registered. -/
theorem C1_create_open_roundtrip (dc : Option Codec)
    (pairs : List (List Nat × List Nat)) (m : Nat) (c : Codec) (F : List Nat)
    (hreg : mkRegistry dc m = some c)
    (hlossless : ∀ d, c.decode (c.encode d) d.length = some d)
    (huniq : pairs.Pairwise (fun p q => p.1 ≠ q.1))
    (hcreate : zip_create dc pairs m = Except.ok F) :
    ∃ a, zip_open F = Except.ok a ∧ zip_get_num_files a = pairs.length ∧
      ∀ i n d, pairs[i]? = some (n, d) →
        zip_entry_name a i = some n ∧ zip_get_payload dc a i = Except.ok d := by
  unfold zip_create at hcreate
  split at hcreate
  · cases hcreate
  · rename_i za hstage
    obtain ⟨hfile, hentries⟩ :=
      zip_stage_entries dc m pairs { file := [], entries := [] } za hstage
    simp only [List.nil_append] at hentries
    obtain ⟨fes, hmapM, hfit, hcount, hbody, hcd2, hF⟩ :=
      finalize_inv dc za F hcreate
    rw [hentries, mapM_encode_staged dc za.file m c hreg pairs] at hmapM
    have hfesdef : pairs.map (finEntry m c) = fes :=
      (Except.ok.injEq _ _).mp hmapM
    have hopen := zip_open_finalized fes hfit hcount hbody hcd2
    rw [← hF] at hopen
    refine ⟨{ file := F, entries := openedEntries fes 0 }, hopen, ?_, ?_⟩
    · simp [zip_get_num_files, openedEntries_length, ← hfesdef]
    · intro i n d hid
      have hfe : fes[i]? = some (finEntry m c (n, d)) := by
        rw [← hfesdef]
        simp [List.getElem?_map, hid]
      constructor
      · simp [zip_entry_name, openedEntries_get fes 0 i _ hfe, finEntry]
      · have hpay := getPayload_finalized dc fes hfit i _ hfe
          (cdBytes fes 0 ++
            eocdBytes fes.length (cdBytes fes 0).length (bodyBytes fes).length)
        have hFassoc : bodyBytes fes ++
            (cdBytes fes 0 ++ eocdBytes fes.length (cdBytes fes 0).length
              (bodyBytes fes).length) = F := by
          rw [hF, List.append_assoc]
        rw [hFassoc] at hpay
        rw [hpay]
        simp only [finEntry]
        exact decodeCheck_lossless dc m c d hreg (hlossless d)

/-- Concrete two-file input used to instantiate the C1 round trip. -/
def c1pairs : List (List Nat × List Nat) := [([97], [1, 2, 3]), ([98], [4, 5])]

/-- The archive file produced by creating `c1pairs` with the store method. -/
def c1file : List Nat := (zip_create none c1pairs 0).toOption.getD []

set_option maxRecDepth 100000 in
/-- Witness for C1: the round trip evaluated on a concrete two-entry
archive created with the store method and no deflate backend. -/
theorem C1_create_open_roundtrip_witness :
    ∃ a, zip_open c1file = Except.ok a ∧ zip_get_num_files a = 2 ∧
      ∀ i n d, c1pairs[i]? = some (n, d) →
        zip_entry_name a i = some n ∧ zip_get_payload none a i = Except.ok d :=
  C1_create_open_roundtrip none c1pairs 0 storeCodec c1file rfl
    storeCodec_lossless (by decide) (by decide)

/-- C8: creating an archive with zero entries yields exactly the 22-byte
EOCD-only file (a 0-length comment), whose literal bytes are the EOCD
signature followed by 18 zero bytes, and reopening it succeeds with an
entry count of 0. -/
theorem C8_empty_archive (dc : Option Codec) (m : Nat) :
    zip_create dc [] m = Except.ok (eocdBytes 0 0 0) ∧
    (eocdBytes 0 0 0).length = 22 ∧
    eocdBytes 0 0 0 = [0x50, 0x4b, 0x05, 0x06] ++ List.replicate 18 0 ∧
    zip_open (eocdBytes 0 0 0) =
      Except.ok { file := eocdBytes 0 0 0, entries := [] } ∧
    zip_get_num_files { file := eocdBytes 0 0 0, entries := [] } = 0 :=
  ⟨rfl, by decide, by decide, by decide, rfl⟩

theorem take_set_of_le (l : List Nat) :
    ∀ (i v n : Nat), n ≤ i → (l.set i v).take n = l.take n := by
  induction l with
  | nil => intro i v n h; simp
  | cons a l ih =>
      intro i v n h
      cases i with
      | zero =>
          have hn : n = 0 := Nat.le_zero.mp h
          subst hn
          simp
      | succ j =>
          cases n with
          | zero => simp
          | succ k =>
              simp only [List.set_cons_succ, List.take_succ_cons]
              rw [ih j v k (by omega)]

theorem take_set_of_lt (l : List Nat) :
    ∀ (i v n : Nat), i < n → (l.set i v).take n = (l.take n).set i v := by
  induction l with
  | nil => intro i v n h; simp
  | cons a l ih =>
      intro i v n h
      cases n with
      | zero => omega
      | succ k =>
          cases i with
          | zero => simp
          | succ j =>
              simp only [List.set_cons_succ, List.take_succ_cons]
              rw [ih j v k (by omega)]

theorem drop_set_ge (l : List Nat) :
    ∀ (i v q : Nat), q ≤ i → (l.set i v).drop q = (l.drop q).set (i - q) v := by
  induction l with
  | nil => intro i v q h; simp
  | cons a l ih =>
      intro i v q h
      cases q with
      | zero => simp
      | succ k =>
          cases i with
          | zero => omega
          | succ j =>
              simp only [List.set_cons_succ, List.drop_succ_cons]
              rw [ih j v k (by omega)]
              congr 1
              omega

theorem bytesAt_set_of_le (f : List Nat) (p v q n : Nat) (h : q + n ≤ p) :
    bytesAt (f.set p v) q n = bytesAt f q n := by
  unfold bytesAt
  rw [drop_set_ge f p v q (by omega), take_set_of_le _ (p - q) v n (by omega)]

theorem bytesAt_set_inside (f : List Nat) (q j v n : Nat) (hj : j < n) :
    bytesAt (f.set (q + j) v) q n = (bytesAt f q n).set j v := by
  unfold bytesAt
  rw [drop_set_ge f (q + j) v q (by omega)]
  have hred : q + j - q = j := by omega
  rw [hred, take_set_of_lt _ j v n hj]

theorem set_decomp (l : List Nat) :
    ∀ (j v b0 : Nat), l[j]? = some b0 →
    l = l.take j ++ b0 :: l.drop (j + 1) ∧
      l.set j v = l.take j ++ v :: l.drop (j + 1) := by
  induction l with
  | nil => intro j v b0 h; simp at h
  | cons a l ih =>
      intro j v b0 h
      cases j with
      | zero =>
          simp at h
          subst h
          simp
      | succ k =>
          simp at h
          obtain ⟨h1, h2⟩ := ih k v b0 h
          constructor
          · simp only [List.take_succ_cons, List.drop_succ_cons,
              List.cons_append]
            rw [← h1]
          · simp only [List.set_cons_succ, List.take_succ_cons,
              List.drop_succ_cons, List.cons_append]
            rw [← h2]

theorem crc32_set_ne (d : List Nat) (j v b0 : Nat) (h : d[j]? = some b0)
    (hb0 : b0 < 256) (hv : v < 256) (hne : v ≠ b0) :
    crc32 (d.set j v) ≠ crc32 d := by
  obtain ⟨h1, h2⟩ := set_decomp d j v b0 h
  rw [h2]
  conv_rhs => rw [h1]
  exact crc32_ne_of_single_byte_change _ _ hv hb0 hne

theorem bytesAt_getElem (f : List Nat) (q n j : Nat) (hj : j < n) :
    (bytesAt f q n)[j]? = f[q + j]? := by
  unfold bytesAt
  rw [List.getElem?_take_of_lt hj, List.getElem?_drop]

theorem readCompressed_inv (f : List Nat) (off cs : Nat) (comp : List Nat)
    (h : readCompressed f off cs = Except.ok comp) :
    off + 30 ≤ f.length ∧ bytesAt f off 4 = lfhSig ∧
      off + 30 + readLE f (off + 26) 2 + readLE f (off + 28) 2 + cs ≤
        f.length ∧
      comp = bytesAt f
        (off + 30 + readLE f (off + 26) 2 + readLE f (off + 28) 2) cs := by
  unfold readCompressed at h
  split at h
  · rename_i h30
    split at h
    · rename_i hsig
      split at h
      · rename_i hbound
        cases h
        exact ⟨h30, hsig, hbound, rfl⟩
      · cases h
    · cases h
  · cases h

theorem decodeCheck_ok_crc (dc : Option Codec) (m us crcv : Nat)
    (comp d : List Nat) (h : decodeCheck dc m us crcv comp = Except.ok d) :
    crc32 d = crcv := by
  unfold decodeCheck at h
  split at h
  · cases h
  · split at h
    · cases h
    · split at h
      · rename_i hcrc
        cases h
        exact hcrc
      · cases h

theorem decodeCheck_store_ok (dc : Option Codec) (us crcv : Nat)
    (comp d : List Nat) (h : decodeCheck dc 0 us crcv comp = Except.ok d) :
    d = comp ∧ comp.length = us ∧ crc32 comp = crcv := by
  have hreg : mkRegistry dc 0 = some storeCodec := rfl
  unfold decodeCheck at h
  rw [hreg] at h
  simp only [storeCodec] at h
  split at h
  · rename_i hnone
    cases h
  · rename_i d2 hd2
    split at h
    · rename_i hcrc
      cases h
      by_cases hl : comp.length = us
      · simp [hl] at hd2
        subst hd2
        exact ⟨rfl, hl, hcrc⟩
      · simp [hl] at hd2
    · cases h

theorem parseCDR_borrowed (f : List Nat) (pos : Nat) (ent : Entry)
    (next : Nat) (h : parseCDR f pos = Except.ok (ent, next)) :
    ∃ off, ent.source = PayloadSource.borrowed off := by
  unfold parseCDR at h
  split at h
  · split at h
    · split at h
      · cases h
        exact ⟨_, rfl⟩
      · cases h
    · cases h
  · cases h

theorem parseCD_succ_ok (f : List Nat) (pos k : Nat) (ent : Entry)
    (next : Nat) (hcdr : parseCDR f pos = Except.ok (ent, next)) :
    parseCD f pos (k + 1) =
      match parseCD f next k with
      | Except.error e => Except.error e
      | Except.ok es => Except.ok (ent :: es) := by
  simp only [parseCD]
  rw [hcdr]

theorem parseCD_succ_err (f : List Nat) (pos k : Nat) (err : ZipErr)
    (hcdr : parseCDR f pos = Except.error err) :
    parseCD f pos (k + 1) = Except.error err := by
  simp only [parseCD]
  rw [hcdr]

theorem parseCD_borrowed (f : List Nat) :
    ∀ (n pos : Nat) (es : List Entry), parseCD f pos n = Except.ok es →
    ∀ e ∈ es, ∃ off, e.source = PayloadSource.borrowed off := by
  intro n
  induction n with
  | zero =>
      intro pos es h e he
      cases h
      simp at he
  | succ k ih =>
      intro pos es h e he
      cases hcdr : parseCDR f pos with
      | error err => rw [parseCD_succ_err f pos k err hcdr] at h; cases h
      | ok p =>
          obtain ⟨ent, next⟩ := p
          rw [parseCD_succ_ok f pos k ent next hcdr] at h
          cases hrest : parseCD f next k with
          | error err => rw [hrest] at h; cases h
          | ok es2 =>
              rw [hrest] at h
              cases h
              rcases List.mem_cons.mp he with he1 | he2
              · subst he1
                exact parseCDR_borrowed f pos e next hcdr
              · exact ih next es2 hrest e he2

theorem zip_open_inv (f : List Nat) (a : Archive)
    (h : zip_open f = Except.ok a) :
    a.file = f ∧ ∀ e ∈ a.entries, ∃ off, e.source = PayloadSource.borrowed off := by
  unfold zip_open at h
  split at h
  · cases h
  · rename_i p hp
    split at h
    · cases h
    · rename_i es hes
      cases h
      exact ⟨rfl, parseCD_borrowed f _ _ es hes⟩

theorem zip_get_payload_ok_inv (dc : Option Codec) (a : Archive) (i : Nat)
    (d : List Nat) (h : zip_get_payload dc a i = Except.ok d) :
    ∃ e, a.entries[i]? = some e ∧
      ((∃ dd, e.source = PayloadSource.owned dd ∧ d = dd) ∨
       (∃ off comp, e.source = PayloadSource.borrowed off ∧
         readCompressed a.file off e.compressedSize = Except.ok comp ∧
         decodeCheck dc e.method e.uncompressedSize e.crc32 comp =
           Except.ok d)) := by
  unfold zip_get_payload at h
  split at h
  next => cases h
  next e he =>
    split at h
    next dd hdd =>
      cases h
      exact ⟨e, he, Or.inl ⟨_, hdd, rfl⟩⟩
    next off hoff =>
      split at h
      next => cases h
      next comp hcomp =>
        exact ⟨e, he, Or.inr ⟨off, comp, hoff, hcomp, h⟩⟩

theorem readCompressed_set (f : List Nat) (off cs : Nat) (comp : List Nat)
    (j v : Nat) (h : readCompressed f off cs = Except.ok comp) (hj : j < cs) :
    readCompressed
      (f.set (off + 30 + readLE f (off + 26) 2 + readLE f (off + 28) 2 + j) v)
      off cs = Except.ok (comp.set j v) := by
  obtain ⟨h30, hsig, hbound, hcomp⟩ := readCompressed_inv f off cs comp h
  have hsig2 : bytesAt
      (f.set (off + 30 + readLE f (off + 26) 2 + readLE f (off + 28) 2 + j) v)
      off 4 = lfhSig := by
    rw [bytesAt_set_of_le f _ v off 4 (by omega)]
    exact hsig
  have h26 : readLE
      (f.set (off + 30 + readLE f (off + 26) 2 + readLE f (off + 28) 2 + j) v)
      (off + 26) 2 = readLE f (off + 26) 2 := by
    unfold readLE
    rw [bytesAt_set_of_le f _ v (off + 26) 2 (by omega)]
  have h28 : readLE
      (f.set (off + 30 + readLE f (off + 26) 2 + readLE f (off + 28) 2 + j) v)
      (off + 28) 2 = readLE f (off + 28) 2 := by
    unfold readLE
    rw [bytesAt_set_of_le f _ v (off + 28) 2 (by omega)]
  unfold readCompressed
  rw [List.length_set, h26, h28]
  rw [if_pos h30, hsig2, if_pos rfl, if_pos hbound]
  rw [bytesAt_set_inside f _ j v cs hj, ← hcomp]

/-- C2 (amended): for every opened archive, a successful `zip_get_payload`
returns bytes whose CRC-32 equals the entry's stored crc32; and for every
entry read with the store method (method 0), changing exactly one byte in
that entry's on-disk payload region to a different byte value makes
`zip_get_payload` fail with `IntegrityError`. -/
theorem C2_crc_invariant_and_store_corruption (dc : Option Codec)
    (f : List Nat) (a : Archive) (hopen : zip_open f = Except.ok a) :
    (∀ i d, zip_get_payload dc a i = Except.ok d →
      ∃ e, a.entries[i]? = some e ∧ crc32 d = e.crc32) ∧
    (∀ i e off j v b0 d, a.entries[i]? = some e →
      e.source = PayloadSource.borrowed off → e.method = 0 →
      zip_get_payload dc a i = Except.ok d → j < e.compressedSize →
      f[off + 30 + readLE f (off + 26) 2 + readLE f (off + 28) 2 + j]? =
        some b0 →
      b0 < 256 → v < 256 → v ≠ b0 →
      zip_get_payload dc
        { file := f.set (off + 30 + readLE f (off + 26) 2 +
            readLE f (off + 28) 2 + j) v,
          entries := a.entries } i = Except.error ZipErr.IntegrityError) := by
  obtain ⟨hfile, hbor⟩ := zip_open_inv f a hopen
  constructor
  · intro i d hok
    obtain ⟨e, he, hcase⟩ := zip_get_payload_ok_inv dc a i d hok
    refine ⟨e, he, ?_⟩
    rcases hcase with ⟨dd, hown, hdd⟩ | ⟨off, comp, hoff, hrc, hdec⟩
    · exfalso
      obtain ⟨o2, hb⟩ := hbor e (List.getElem?_mem he)
      rw [hown] at hb
      cases hb
    · exact decodeCheck_ok_crc dc e.method _ _ comp d hdec
  · intro i e off j v b0 d he hoff hm hok hj hb0v hb0 hv hne
    simp only [zip_get_payload, he, hoff] at hok
    cases hrc : readCompressed a.file off e.compressedSize with
    | error err =>
        rw [hrc] at hok
        cases hok
    | ok comp =>
        rw [hrc] at hok
        rw [hm] at hok
        obtain ⟨hdcomp, hlen2, hcrceq⟩ := decodeCheck_store_ok dc _ _ comp d hok
        rw [hfile] at hrc
        obtain ⟨h30, hsigv, hbound2, hcompv⟩ := readCompressed_inv f off
          e.compressedSize comp hrc
        have hset := readCompressed_set f off e.compressedSize comp j v hrc hj
        have hcompj : comp[j]? = some b0 := by
          rw [hcompv, bytesAt_getElem f _ e.compressedSize j hj]
          exact hb0v
        have hcrcne : crc32 (comp.set j v) ≠ e.crc32 := by
          rw [← hcrceq]
          exact crc32_set_ne comp j v b0 hcompj hb0 hv hne
        simp only [zip_get_payload, he, hoff, hset]
        have hreg : mkRegistry dc 0 = some storeCodec := rfl
        rw [hm]
        simp [decodeCheck, hreg, storeCodec, List.length_set, hlen2, hcrcne]

/-- Concrete one-file input used to instantiate the C2 theorem. -/
def c2pairs : List (List Nat × List Nat) := [([97], [1, 2, 3])]

/-- The store-method archive created from `c2pairs`. -/
def c2file : List Nat := (zip_create none c2pairs 0).toOption.getD []

/-- The archive obtained by reopening `c2file`. -/
def c2arch : Archive :=
  (zip_open c2file).toOption.getD { file := [], entries := [] }

set_option maxRecDepth 100000 in
/-- Witness for C2: on a concrete one-entry store archive, the CRC
invariant holds, and flipping the first payload byte on disk (position 31,
byte 1 changed to 9) makes `zip_get_payload` fail with `IntegrityError`. -/
theorem C2_crc_invariant_and_store_corruption_witness :
    (∃ e, c2arch.entries[0]? = some e ∧ crc32 [1, 2, 3] = e.crc32) ∧
    zip_get_payload none
      { file := c2file.set 31 9, entries := c2arch.entries } 0 =
      Except.error ZipErr.IntegrityError := by
  have h := C2_crc_invariant_and_store_corruption none c2file c2arch
    (by decide)
  constructor
  · exact h.1 0 [1, 2, 3] (by decide)
  · exact h.2 0
      { name := [97], method := 0, crc32 := crc32 [1, 2, 3],
        compressedSize := 3, uncompressedSize := 3,
        source := PayloadSource.borrowed 0 }
      0 0 9 1 [1, 2, 3] (by decide) rfl rfl (by decide) (by decide)
      (by decide) (by decide) (by decide) (by decide)

/-- A lossless codec whose output carries one byte of framing: decode
drops the leading byte, so a corruption of that byte is undetectable. -/
def shiftCodec : Codec :=
  { encode := fun d => 0 :: d
    decode := fun bs n => if bs.length = n + 1 then some bs.tail else none }

/-- Input for the C2 counterexample. -/
def c2xpairs : List (List Nat × List Nat) := [([97], [7])]

/-- Archive created with `shiftCodec` registered as method 8. -/
def c2xfile : List Nat :=
  (zip_create (some shiftCodec) c2xpairs 8).toOption.getD []

/-- The archive obtained by reopening `c2xfile`. -/
def c2xarch : Archive :=
  (zip_open c2xfile).toOption.getD { file := [], entries := [] }

set_option maxRecDepth 100000 in
/-- Counterexample to C2 as stated: in an archive whose entry uses a
registered, lossless non-store codec (method 8), changing exactly one
payload byte on disk (position 31, the first byte of the entry's payload
region, changed from 0 to 5) does NOT make `zip_get_payload` fail with
`IntegrityError` — it succeeds and returns bytes. -/
theorem C2_counterexample :
    zip_create (some shiftCodec) c2xpairs 8 = Except.ok c2xfile ∧
    shiftCodec.decode (shiftCodec.encode [7]) 1 = some [7] ∧
    zip_open c2xfile = Except.ok c2xarch ∧
    zip_get_payload (some shiftCodec) c2xarch 0 = Except.ok [7] ∧
    readLE c2xfile 26 2 = 1 ∧ readLE c2xfile 28 2 = 0 ∧
    c2xarch.entries[0]? = some
      { name := [97], method := 8, crc32 := crc32 [7], compressedSize := 2,
        uncompressedSize := 1, source := PayloadSource.borrowed 0 } ∧
    c2xfile[31]? = some 0 ∧ (5 : Nat) ≠ 0 ∧
    zip_open (c2xfile.set 31 5) =
      Except.ok { file := c2xfile.set 31 5, entries := c2xarch.entries } ∧
    zip_get_payload (some shiftCodec)
      { file := c2xfile.set 31 5, entries := c2xarch.entries } 0 =
      Except.ok [7] := by
  decide

theorem parseCDR_inv (f : List Nat) (pos : Nat) (ent : Entry) (next : Nat)
    (h : parseCDR f pos = Except.ok (ent, next)) :
    pos + 46 ≤ f.length ∧ bytesAt f pos 4 = cdSig ∧
      pos + 46 + readLE f (pos + 28) 2 + readLE f (pos + 30) 2 +
        readLE f (pos + 32) 2 ≤ f.length ∧
      ent = { name := bytesAt f (pos + 46) (readLE f (pos + 28) 2),
              method := readLE f (pos + 10) 2, crc32 := readLE f (pos + 16) 4,
              compressedSize := readLE f (pos + 20) 4,
              uncompressedSize := readLE f (pos + 24) 4,
              source := PayloadSource.borrowed (readLE f (pos + 42) 4) } ∧
      next = pos + 46 + readLE f (pos + 28) 2 + readLE f (pos + 30) 2 +
        readLE f (pos + 32) 2 := by
  unfold parseCDR at h
  split at h
  · rename_i h46
    split at h
    · rename_i hsig
      split at h
      · rename_i hbound
        cases h
        exact ⟨h46, hsig, hbound, rfl, rfl⟩
      · cases h
    · cases h
  · cases h

theorem readLE_append_left (f c : List Nat) (pos w : Nat)
    (h : pos + w ≤ f.length) : readLE (f ++ c) pos w = readLE f pos w := by
  unfold readLE
  rw [bytesAt_append_left f c h]

theorem parseCDR_append (f c : List Nat) (pos : Nat) (ent : Entry)
    (next : Nat) (h : parseCDR f pos = Except.ok (ent, next)) :
    parseCDR (f ++ c) pos = Except.ok (ent, next) := by
  obtain ⟨h46, hsig, hbound, hent, hnext⟩ := parseCDR_inv f pos ent next h
  have hlen : (f ++ c).length = f.length + c.length := List.length_append f c
  have hr28 := readLE_append_left f c (pos + 28) 2 (by omega)
  have hr30 := readLE_append_left f c (pos + 30) 2 (by omega)
  have hr32 := readLE_append_left f c (pos + 32) 2 (by omega)
  have hr10 := readLE_append_left f c (pos + 10) 2 (by omega)
  have hr16 := readLE_append_left f c (pos + 16) 4 (by omega)
  have hr20 := readLE_append_left f c (pos + 20) 4 (by omega)
  have hr24 := readLE_append_left f c (pos + 24) 4 (by omega)
  have hr42 := readLE_append_left f c (pos + 42) 4 (by omega)
  have hsig2 : bytesAt (f ++ c) pos 4 = cdSig := by
    rw [bytesAt_append_left f c (by omega)]
    exact hsig
  have hname : bytesAt (f ++ c) (pos + 46) (readLE f (pos + 28) 2) =
      bytesAt f (pos + 46) (readLE f (pos + 28) 2) :=
    bytesAt_append_left f c (by omega)
  unfold parseCDR
  rw [hr28, hr30, hr32]
  rw [if_pos (by omega), hsig2, if_pos rfl, if_pos (by omega)]
  rw [hr10, hr16, hr20, hr24, hr42, hname, hent, hnext]

theorem parseCD_append (f c : List Nat) :
    ∀ (n pos : Nat) (es : List Entry), parseCD f pos n = Except.ok es →
    parseCD (f ++ c) pos n = Except.ok es := by
  intro n
  induction n with
  | zero =>
      intro pos es h
      cases h
      rfl
  | succ k ih =>
      intro pos es h
      cases hcdr : parseCDR f pos with
      | error err => rw [parseCD_succ_err f pos k err hcdr] at h; cases h
      | ok p =>
          obtain ⟨ent, next⟩ := p
          rw [parseCD_succ_ok f pos k ent next hcdr] at h
          rw [parseCD_succ_ok (f ++ c) pos k ent next
            (parseCDR_append f c pos ent next hcdr)]
          cases hrest : parseCD f next k with
          | error err => rw [hrest] at h; cases h
          | ok es2 =>
              rw [hrest] at h
              rw [ih next es2 hrest]
              exact h

theorem readCompressed_append (f c : List Nat) (off cs : Nat)
    (comp : List Nat) (h : readCompressed f off cs = Except.ok comp) :
    readCompressed (f ++ c) off cs = Except.ok comp := by
  obtain ⟨h30, hsig, hbound, hcomp⟩ := readCompressed_inv f off cs comp h
  have hlen : (f ++ c).length = f.length + c.length := List.length_append f c
  have hr26 := readLE_append_left f c (off + 26) 2 (by omega)
  have hr28 := readLE_append_left f c (off + 28) 2 (by omega)
  have hsig2 : bytesAt (f ++ c) off 4 = lfhSig := by
    rw [bytesAt_append_left f c (by omega)]
    exact hsig
  have hext : bytesAt (f ++ c)
      (off + 30 + readLE f (off + 26) 2 + readLE f (off + 28) 2) cs =
      bytesAt f (off + 30 + readLE f (off + 26) 2 + readLE f (off + 28) 2) cs :=
    bytesAt_append_left f c (by omega)
  unfold readCompressed
  rw [hr26, hr28]
  rw [if_pos (by omega), hsig2, if_pos rfl, if_pos (by omega)]
  rw [hext, ← hcomp]

theorem getPayload_append (dc : Option Codec) (f c : List Nat)
    (es : List Entry) (i : Nat) (d : List Nat)
    (h : zip_get_payload dc { file := f, entries := es } i = Except.ok d) :
    zip_get_payload dc { file := f ++ c, entries := es } i = Except.ok d := by
  obtain ⟨e, he, hcase⟩ :=
    zip_get_payload_ok_inv dc { file := f, entries := es } i d h
  rcases hcase with ⟨dd, hown, hdd⟩ | ⟨off, comp, hoff, hrc, hdec⟩
  · subst hdd
    simp only [zip_get_payload] at he ⊢
    simp only [he, hown]
  · simp only [zip_get_payload] at he ⊢
    simp only [he, hoff]
    have hrc2 := readCompressed_append f c off e.compressedSize comp hrc
    simp only at hrc2
    rw [hrc2]
    exact hdec

theorem take_append_short (xs ys : List Nat) (n : Nat) (h : n ≤ xs.length) :
    (xs ++ ys).take n = xs.take n :=
  List.take_append_of_le_length h

/-- C3 (amended): appending a trailing comment to a finalized archive.
When the appended bytes put no EOCD signature at any position after the
true EOCD record, a comment of 1–65535 bytes leaves the archive opening
with the same entries and the same payloads (the locate policy picks the
signature match closest to the end of the file, inside the last 65557
bytes); appending more than 65535 bytes makes `zip_open` fail with
`MalformedArchive`, with boundary 65535 succeeding and 65536 failing. -/
theorem C3_comment_append (dc : Option Codec) (a : Archive) (F c : List Nat)
    (hfin : zip_finalize dc a = Except.ok F)
    (hno : ∀ r, F.length - 22 < r → r ≤ F.length + c.length - 22 →
      sigAt (F ++ c) r = false) :
    (1 ≤ c.length → c.length ≤ 65535 →
      ∃ es, zip_open F = Except.ok { file := F, entries := es } ∧
        zip_open (F ++ c) = Except.ok { file := F ++ c, entries := es } ∧
        ∀ i d, zip_get_payload dc { file := F, entries := es } i =
            Except.ok d →
          zip_get_payload dc { file := F ++ c, entries := es } i =
            Except.ok d) ∧
    (65535 < c.length →
      zip_open (F ++ c) = Except.error ZipErr.MalformedArchive) := by
  obtain ⟨fes, hmapM, hfit, hcount, hbody, hcd, hF⟩ := finalize_inv dc a F hfin
  subst hF
  have hElen : (eocdBytes fes.length (cdBytes fes 0).length
      (bodyBytes fes).length).length = 22 := eocdBytes_length _ _ _
  have hFlen : (bodyBytes fes ++ cdBytes fes 0 ++
      eocdBytes fes.length (cdBytes fes 0).length (bodyBytes fes).length).length =
      (bodyBytes fes ++ cdBytes fes 0).length + 22 := by
    rw [List.length_append (bodyBytes fes ++ cdBytes fes 0), hElen]
  have hAlen : (bodyBytes fes ++ cdBytes fes 0 ++
      eocdBytes fes.length (cdBytes fes 0).length (bodyBytes fes).length
      ++ c).length =
      (bodyBytes fes ++ cdBytes fes 0).length + 22 + c.length := by
    rw [List.length_append _ c, hFlen]
  have hassoc : bodyBytes fes ++ cdBytes fes 0 ++
      eocdBytes fes.length (cdBytes fes 0).length (bodyBytes fes).length
      ++ c = (bodyBytes fes ++ cdBytes fes 0) ++
      (eocdBytes fes.length (cdBytes fes 0).length (bodyBytes fes).length
        ++ c) :=
    List.append_assoc _ _ c
  have hq : sigAt (bodyBytes fes ++ cdBytes fes 0 ++
      eocdBytes fes.length (cdBytes fes 0).length (bodyBytes fes).length
      ++ c) (bodyBytes fes ++ cdBytes fes 0).length = true := by
    unfold sigAt
    rw [hassoc]
    have h0 := bytesAt_append_right (bodyBytes fes ++ cdBytes fes 0)
      (eocdBytes fes.length (cdBytes fes 0).length (bodyBytes fes).length
        ++ c) 0 4
    rw [Nat.add_zero] at h0
    rw [h0]
    unfold bytesAt
    rw [List.drop_zero, take_append_short _ c 4 (by omega)]
    have := eocd_at_0 fes.length (cdBytes fes 0).length (bodyBytes fes).length
    unfold bytesAt at this
    rw [List.drop_zero] at this
    rw [this]
    simp
  have h10F : readLE (bodyBytes fes ++ cdBytes fes 0 ++
      eocdBytes fes.length (cdBytes fes 0).length (bodyBytes fes).length)
      ((bodyBytes fes ++ cdBytes fes 0).length + 10) 2 = fes.length := by
    unfold readLE
    rw [bytesAt_append_right (bodyBytes fes ++ cdBytes fes 0) _ 10 2,
      eocd_at_10, leVal_le2 hcount]
  have h16F : readLE (bodyBytes fes ++ cdBytes fes 0 ++
      eocdBytes fes.length (cdBytes fes 0).length (bodyBytes fes).length)
      ((bodyBytes fes ++ cdBytes fes 0).length + 16) 4 =
      (bodyBytes fes).length := by
    unfold readLE
    rw [bytesAt_append_right (bodyBytes fes ++ cdBytes fes 0) _ 16 4,
      eocd_at_16, leVal_le4 hbody]
  have hparseF : parseCD (bodyBytes fes ++ cdBytes fes 0 ++
      eocdBytes fes.length (cdBytes fes 0).length (bodyBytes fes).length)
      (bodyBytes fes).length fes.length = Except.ok (openedEntries fes 0) :=
    parseCD_ser fes (bodyBytes fes) _ 0 hfit (by omega)
  constructor
  · intro hk1 hk2
    have hloc : zip_locate_eocd (bodyBytes fes ++ cdBytes fes 0 ++
        eocdBytes fes.length (cdBytes fes 0).length (bodyBytes fes).length
        ++ c) = some (bodyBytes fes ++ cdBytes fes 0).length := by
      unfold zip_locate_eocd
      rw [if_neg (by omega)]
      apply scanBack_found _ _ _ hq (by omega) (by omega)
      intro r h1 h2
      exact hno r (by omega) (by omega)
    have h10A : readLE (bodyBytes fes ++ cdBytes fes 0 ++
        eocdBytes fes.length (cdBytes fes 0).length (bodyBytes fes).length
        ++ c) ((bodyBytes fes ++ cdBytes fes 0).length + 10) 2 =
        fes.length := by
      rw [readLE_append_left _ c _ 2 (by omega)]
      exact h10F
    have h16A : readLE (bodyBytes fes ++ cdBytes fes 0 ++
        eocdBytes fes.length (cdBytes fes 0).length (bodyBytes fes).length
        ++ c) ((bodyBytes fes ++ cdBytes fes 0).length + 16) 4 =
        (bodyBytes fes).length := by
      rw [readLE_append_left _ c _ 4 (by omega)]
      exact h16F
    have hparseA := parseCD_append _ c fes.length (bodyBytes fes).length
      (openedEntries fes 0) hparseF
    have hopenF := zip_open_finalized fes hfit hcount hbody hcd
    refine ⟨openedEntries fes 0, hopenF, ?_, ?_⟩
    · simp only [zip_open, hloc]
      rw [h16A, h10A, hparseA]
    · intro i d hpay
      exact getPayload_append dc _ c (openedEntries fes 0) i d hpay
  · intro hk3
    have hlocN : zip_locate_eocd (bodyBytes fes ++ cdBytes fes 0 ++
        eocdBytes fes.length (cdBytes fes 0).length (bodyBytes fes).length
        ++ c) = none := by
      unfold zip_locate_eocd
      rw [if_neg (by omega)]
      apply scanBack_none
      intro r h1 h2
      refine hno r ?_ (by omega)
      have hmin : min ((bodyBytes fes ++ cdBytes fes 0 ++
          eocdBytes fes.length (cdBytes fes 0).length (bodyBytes fes).length
          ++ c).length - 22) 65535 = 65535 := by omega
      omega
    simp only [zip_open, hlocN]

set_option maxRecDepth 100000 in
/-- Witness for C3: appending the single comment byte 0 to the empty
archive still opens with the same (empty) entry table. -/
theorem C3_comment_append_witness :
    ∃ es, zip_open (eocdBytes 0 0 0) =
        Except.ok { file := eocdBytes 0 0 0, entries := es } ∧
      zip_open (eocdBytes 0 0 0 ++ [0]) =
        Except.ok { file := eocdBytes 0 0 0 ++ [0], entries := es } ∧
      ∀ i d, zip_get_payload none
          { file := eocdBytes 0 0 0, entries := es } i = Except.ok d →
        zip_get_payload none
          { file := eocdBytes 0 0 0 ++ [0], entries := es } i =
          Except.ok d :=
  (C3_comment_append none { file := [], entries := [] } (eocdBytes 0 0 0) [0]
    (by decide)
    (by
      intro r h1 h2
      have hl : (eocdBytes 0 0 0).length = 22 := by decide
      have hc : ([0] : List Nat).length = 1 := rfl
      rw [hl] at h1
      rw [hl, hc] at h2
      have hr : r = 1 := by omega
      subst hr
      decide)).1 (by decide) (by decide)

/-- A 22-byte "comment" that itself starts with the EOCD signature and
continues with 0xFF bytes. -/
def c3garbage : List Nat := [0x50, 0x4b, 0x05, 0x06] ++ List.replicate 18 255

set_option maxRecDepth 100000 in
/-- Counterexample to C3 as stated: the claim allows the appended comment
to contain the EOCD signature, but appending such a 22-byte comment to a
valid (empty) archive makes `zip_open` fail — the backward scan prefers
the spurious signature match closest to the end of the file, and the
record decoded there does not parse. -/
theorem C3_counterexample :
    zip_create none [] 0 = Except.ok (eocdBytes 0 0 0) ∧
    c3garbage.length = 22 ∧ 1 ≤ c3garbage.length ∧ c3garbage.length ≤ 65535 ∧
    zip_open (eocdBytes 0 0 0) =
      Except.ok { file := eocdBytes 0 0 0, entries := [] } ∧
    zip_open (eocdBytes 0 0 0 ++ c3garbage) =
      Except.error ZipErr.TruncatedRecord := by
  decide


/-- The finalized form of a flushed (borrowed) entry whose compressed
bytes were copied from the backing file. -/
def feOf (e : Entry) (comp : List Nat) : FinalizedEntry :=
  { name := e.name, method := e.method, crc := e.crc32,
    usize := e.uncompressedSize, comp := comp }

theorem encodeEntry_borrowed (dc : Option Codec) (file : List Nat) (e : Entry)
    (off : Nat) (comp : List Nat) (hoff : e.source = PayloadSource.borrowed off)
    (hrc : readCompressed file off e.compressedSize = Except.ok comp) :
    encodeEntry dc file e = Except.ok (feOf e comp) := by
  simp only [encodeEntry, hoff, hrc, feOf]

/-- C7: opening an existing 2-entry archive, staging a third entry, and
finalizing yields a 3-entry archive in which the payload bytes and the
stored crc32 values of the first two entries are identical to their values
before the append. -/
theorem C7_append_preserves_entries (dc : Option Codec) (F : List Nat)
    (a : Archive) (name data : List Nat) (m : Nat) (za2 : Archive)
    (F2 : List Nat) (d0 d1 : List Nat)
    (hopen : zip_open F = Except.ok a)
    (hcount : zip_get_num_files a = 2)
    (hp0 : zip_get_payload dc a 0 = Except.ok d0)
    (hp1 : zip_get_payload dc a 1 = Except.ok d1)
    (hadd : zip_add_entry dc a name data m = (za2, none))
    (hfin : zip_finalize dc za2 = Except.ok F2) :
    ∃ a2, zip_open F2 = Except.ok a2 ∧ zip_get_num_files a2 = 3 ∧
      zip_get_payload dc a2 0 = Except.ok d0 ∧
      zip_get_payload dc a2 1 = Except.ok d1 ∧
      (a2.entries[0]?).map Entry.crc32 = (a.entries[0]?).map Entry.crc32 ∧
      (a2.entries[1]?).map Entry.crc32 = (a.entries[1]?).map Entry.crc32 := by
  obtain ⟨hfile, hbor⟩ := zip_open_inv F a hopen
  obtain ⟨e0, e1, hae⟩ : ∃ e0 e1, a.entries = [e0, e1] := by
    unfold zip_get_num_files at hcount
    match hval : a.entries with
    | [e0, e1] => exact ⟨e0, e1, rfl⟩
    | [] => rw [hval] at hcount; cases hcount
    | [_] => rw [hval] at hcount; cases hcount
    | _ :: _ :: _ :: _ => rw [hval] at hcount; simp at hcount
  obtain ⟨⟨creg, hcreg⟩, hnsz, hdsz, hza2⟩ :=
    zip_add_entry_ok dc a name data m za2 hadd
  obtain ⟨off0, hoff0⟩ : ∃ off, e0.source = PayloadSource.borrowed off := by
    apply hbor
    rw [hae]
    simp
  obtain ⟨off1, hoff1⟩ : ∃ off, e1.source = PayloadSource.borrowed off := by
    apply hbor
    rw [hae]
    simp
  have hi0 : a.entries[0]? = some e0 := by rw [hae]; rfl
  have hi1 : a.entries[1]? = some e1 := by rw [hae]; rfl
  obtain ⟨e0b, he0b, hcase0⟩ := zip_get_payload_ok_inv dc a 0 d0 hp0
  rw [hi0] at he0b
  obtain ⟨e1b, he1b, hcase1⟩ := zip_get_payload_ok_inv dc a 1 d1 hp1
  rw [hi1] at he1b
  cases he0b
  cases he1b
  rcases hcase0 with ⟨dd, hown, _⟩ | ⟨offx, comp0, hoffx, hrc0, hdec0⟩
  · rw [hoff0] at hown; cases hown
  rcases hcase1 with ⟨dd, hown, _⟩ | ⟨offy, comp1, hoffy, hrc1, hdec1⟩
  · rw [hoff1] at hown; cases hown
  rw [hoff0] at hoffx
  rw [hoff1] at hoffy
  have hox : off0 = offx := by injection hoffx
  have hoy : off1 = offy := by injection hoffy
  subst hox
  subst hoy
  rw [hfile] at hrc0 hrc1
  obtain ⟨fes, hmapM, hfit, hcnt, hbody, hcd, hF2⟩ :=
    finalize_inv dc za2 F2 hfin
  have hza2file : za2.file = F := by rw [hza2, hfile]
  have hza2entries : za2.entries = [e0, e1, stagedEntry m (name, data)] := by
    rw [hza2, hae]
    rfl
  have henc0 := encodeEntry_borrowed dc F e0 off0 comp0 hoff0 hrc0
  have henc1 := encodeEntry_borrowed dc F e1 off1 comp1 hoff1 hrc1
  have hencN := encodeEntry_owned dc F m creg hcreg (name, data)
  have hmapM2 : za2.entries.mapM (encodeEntry dc za2.file) =
      Except.ok [feOf e0 comp0, feOf e1 comp1, finEntry m creg (name, data)] := by
    rw [hza2entries, hza2file]
    simp only [List.mapM_cons, henc0, henc1, hencN]
    rfl
  rw [hmapM2] at hmapM
  have hfes : fes = [feOf e0 comp0, feOf e1 comp1,
      finEntry m creg (name, data)] := by
    injection hmapM.symm
  have hopen2 := zip_open_finalized fes hfit hcnt hbody hcd
  rw [← hF2] at hopen2
  have hFassoc : bodyBytes fes ++
      (cdBytes fes 0 ++ eocdBytes fes.length (cdBytes fes 0).length
        (bodyBytes fes).length) = F2 := by
    rw [hF2, List.append_assoc]
  refine ⟨{ file := F2, entries := openedEntries fes 0 }, hopen2, ?_, ?_, ?_,
    ?_, ?_⟩
  · simp [zip_get_num_files, openedEntries_length, hfes]
  · have hfe0 : fes[0]? = some (feOf e0 comp0) := by rw [hfes]; rfl
    have hpay := getPayload_finalized dc fes hfit 0 _ hfe0
      (cdBytes fes 0 ++
        eocdBytes fes.length (cdBytes fes 0).length (bodyBytes fes).length)
    rw [hFassoc] at hpay
    rw [hpay]
    exact hdec0
  · have hfe1 : fes[1]? = some (feOf e1 comp1) := by rw [hfes]; rfl
    have hpay := getPayload_finalized dc fes hfit 1 _ hfe1
      (cdBytes fes 0 ++
        eocdBytes fes.length (cdBytes fes 0).length (bodyBytes fes).length)
    rw [hFassoc] at hpay
    rw [hpay]
    exact hdec1
  · rw [hfes, hi0]
    rfl
  · rw [hfes, hi1]
    rfl

/-- The two-entry archive `c1file` reopened. -/
def c7arch : Archive :=
  (zip_open c1file).toOption.getD { file := [], entries := [] }

/-- `c7arch` with a third entry staged. -/
def c7za2 : Archive := (zip_add_entry none c7arch [99] [6] 0).1

/-- The file produced by finalizing the 3-entry archive. -/
def c7file2 : List Nat := (zip_finalize none c7za2).toOption.getD []

set_option maxRecDepth 1000000 in
/-- Witness for C7: appending a third entry to the concrete two-entry
archive keeps the first two payloads and crc32 values identical. -/
theorem C7_append_preserves_entries_witness :
    ∃ a2, zip_open c7file2 = Except.ok a2 ∧ zip_get_num_files a2 = 3 ∧
      zip_get_payload none a2 0 = Except.ok [1, 2, 3] ∧
      zip_get_payload none a2 1 = Except.ok [4, 5] ∧
      (a2.entries[0]?).map Entry.crc32 = (c7arch.entries[0]?).map Entry.crc32 ∧
      (a2.entries[1]?).map Entry.crc32 = (c7arch.entries[1]?).map Entry.crc32 :=
  C7_append_preserves_entries none c1file c7arch [99] [6] 0 c7za2 c7file2
    [1, 2, 3] [4, 5] (by decide) (by decide) (by decide) (by decide)
    (by decide) (by decide)

/-- C6: requesting a compression method that is not in the codec registry
(for example method 8, deflate, when no deflate backend was compiled in)
makes add_entry fail with `UnsupportedMethod` leaving the directory
unmodified, and makes decoding a flushed entry recorded with that method
fail with `UnsupportedMethod` as well. -/
theorem C6_unsupported_method (dc : Option Codec) (za : Archive)
    (name data : List Nat) (m : Nat) (hm : mkRegistry dc m = none) :
    mkRegistry none 8 = none ∧
    zip_add_entry dc za name data m = (za, some ZipErr.UnsupportedMethod) ∧
    (∀ i e off comp, za.entries[i]? = some e →
      e.source = PayloadSource.borrowed off → e.method = m →
      readCompressed za.file off e.compressedSize = Except.ok comp →
      zip_get_payload dc za i = Except.error ZipErr.UnsupportedMethod) := by
  refine ⟨rfl, ?_, ?_⟩
  · unfold zip_add_entry
    rw [hm]
  · intro i e off comp he hoff hmm hrc
    simp only [zip_get_payload, he, hoff, hrc]
    unfold decodeCheck
    rw [hmm, hm]

set_option maxRecDepth 100000 in
/-- Witness for C6: with no deflate backend registered, adding with method
8 fails with `UnsupportedMethod` and leaves the directory unchanged, and
reading the method-8 entry of a concrete archive fails the same way. -/
theorem C6_unsupported_method_witness :
    zip_add_entry none c2xarch [97] [1] 8 =
      (c2xarch, some ZipErr.UnsupportedMethod) ∧
    zip_get_payload none c2xarch 0 = Except.error ZipErr.UnsupportedMethod := by
  have h := C6_unsupported_method none c2xarch [97] [1] 8 rfl
  refine ⟨h.2.1, ?_⟩
  exact h.2.2 0
    { name := [97], method := 8, crc32 := crc32 [7], compressedSize := 2,
      uncompressedSize := 1, source := PayloadSource.borrowed 0 }
    0 [0, 7] (by decide) rfl rfl (by decide)

theorem set_append_length {α : Type} (l : List α) (a b : α) :
    (l ++ [a]).set l.length b = l ++ [b] := by
  induction l with
  | nil => rfl
  | cons x rest ih => simp [List.set_cons_succ, ih]

theorem zip_file_add_ok (dc : Option Codec) (za : Archive)
    (name data : List Nat) (za1 : Archive) (idx : Nat)
    (h : zip_file_add dc za name data = some (za1, idx)) :
    zip_add_entry dc za name data 0 = (za1, none) ∧
      idx = za.entries.length := by
  unfold zip_file_add at h
  split at h
  · rename_i za2 hadd
    cases h
    exact ⟨hadd, rfl⟩
  · cases h

theorem zip_set_file_compression_fail (dc : Option Codec) (za : Archive)
    (idx m : Nat) (h : (zip_set_file_compression dc za idx m).2 = false) :
    (zip_set_file_compression dc za idx m).1 = za := by
  unfold zip_set_file_compression at h ⊢
  cases he : za.entries[idx]? with
  | none => simp
  | some e =>
      cases hr : mkRegistry dc m with
      | none => simp [he, hr]
      | some c =>
          cases hs : e.source with
          | borrowed o => simp [he, hr, hs]
          | owned d => simp [he, hr, hs] at h

theorem addOneFile_fail (dc : Option Codec) (za : Archive) (f : CliFile)
    (h : (addOneFile dc za f).2 = false) : (addOneFile dc za f).1 = za := by
  unfold addOneFile at h ⊢
  cases hc : f.content with
  | none => simp
  | some data =>
      cases ha : zip_file_add dc za (base_name f.path) data with
      | none => simp [hc, ha]
      | some p => simp [hc, ha] at h

/-- C9 (helper): a successful `addOneFile` appends exactly one entry with
method 0 (store) and the file's bytes as an owned, uncompressed buffer. -/
theorem addOneFile_ok (dc : Option Codec) (za : Archive) (f : CliFile)
    (za2 : Archive) (h : addOneFile dc za f = (za2, true)) :
    ∃ d, f.content = some d ∧
      za2.entries.length = za.entries.length + 1 ∧
      za2.entries.take za.entries.length = za.entries ∧
      za2.entries[za.entries.length]? =
        some (stagedEntry 0 (base_name f.path, d)) := by
  unfold addOneFile at h
  cases hc : f.content with
  | none =>
      simp only [hc] at h
      simp at h
  | some data =>
      simp only [hc] at h
      cases ha : zip_file_add dc za (base_name f.path) data with
      | none =>
          simp only [ha] at h
          simp at h
      | some p =>
          obtain ⟨za1, idx⟩ := p
          simp only [ha] at h
          obtain ⟨hadd, hidx⟩ := zip_file_add_ok dc za _ data za1 idx ha
          obtain ⟨_, _, _, hza1⟩ := zip_add_entry_ok dc za _ data 0 za1 hadd
          subst hidx
          have hget : za1.entries[za.entries.length]? =
              some (stagedEntry 0 (base_name f.path, data)) := by
            rw [hza1]
            exact List.getElem?_concat_length _ _
          have hset : zip_set_file_compression dc za1 za.entries.length 0 =
              (Archive.mk za1.file (za1.entries.set za.entries.length
                (stagedEntry 0 (base_name f.path, data))), true) := by
            unfold zip_set_file_compression
            rw [hget]
            rfl
          rw [hset] at h
          cases h
          refine ⟨data, rfl, ?_, ?_, ?_⟩
          · simp [hza1]
          · simp only [hza1, set_append_length]
            exact List.take_left _ _
          · simp only [hza1, set_append_length]
            exact List.getElem?_concat_length _ _

/-- C9: every file the CLI adds successfully is staged with compression
method 0 (store) as an owned, uncompressed buffer, appended after the
existing entries; and a failing `zip_set_file_compression` leaves the
archive unchanged (the entry is not removed), while the loop over the
remaining files continues regardless. -/
theorem C9_cli_store_method :
    (∀ dc za f za2, addOneFile dc za f = (za2, true) →
      ∃ d, f.content = some d ∧
        za2.entries.length = za.entries.length + 1 ∧
        za2.entries.take za.entries.length = za.entries ∧
        za2.entries[za.entries.length]? =
          some (stagedEntry 0 (base_name f.path, d)) ∧
        (stagedEntry 0 (base_name f.path, d)).method = 0 ∧
        (stagedEntry 0 (base_name f.path, d)).source =
          PayloadSource.owned d) ∧
    (∀ dc za idx m, (zip_set_file_compression dc za idx m).2 = false →
      (zip_set_file_compression dc za idx m).1 = za) ∧
    (∀ dc za f rest, create_or_add_run dc za (f :: rest) =
      create_or_add_run dc (addOneFile dc za f).1 rest) := by
  refine ⟨?_, zip_set_file_compression_fail, fun _ _ _ _ => rfl⟩
  intro dc za f za2 h
  obtain ⟨d, h1, h2, h3, h4⟩ := addOneFile_ok dc za f za2 h
  exact ⟨d, h1, h2, h3, h4, rfl, rfl⟩

/-- The input file of the C9 witness: path "d/b" with one content byte. -/
def c9file : CliFile := { path := [100, 47, 98], content := some [1] }

/-- The archive after the CLI adds `c9file` to an empty archive. -/
def c9za2 : Archive :=
  (addOneFile none { file := [], entries := [] } c9file).1

/-- Witness for C9: the concrete file is staged as the single entry, with
method 0, an owned buffer, and the base name of its path. -/
theorem C9_cli_store_method_witness :
    ∃ d, c9file.content = some d ∧
      c9za2.entries.length = 0 + 1 ∧
      c9za2.entries.take 0 = [] ∧
      c9za2.entries[(0 : Nat)]? =
        some (stagedEntry 0 (base_name c9file.path, d)) ∧
      (stagedEntry 0 (base_name c9file.path, d)).method = 0 ∧
      (stagedEntry 0 (base_name c9file.path, d)).source =
        PayloadSource.owned d :=
  C9_cli_store_method.1 none { file := [], entries := [] } c9file c9za2
    (by decide)

theorem strrchr_none_iff (l : List Nat) (c : Nat) :
    strrchr l c = none ↔ c ∉ l := by
  induction l with
  | nil => simp [strrchr]
  | cons b rest ih =>
      unfold strrchr
      cases hs : strrchr rest c with
      | some i =>
          have hc : c ∈ rest := by
            by_contra hcc
            rw [← ih] at hcc
            rw [hcc] at hs
            cases hs
          simp [hc]
      | none =>
          have hnc : c ∉ rest := ih.mp hs
          by_cases hbc : b = c
          · simp [hbc]
          · simp [hbc, hnc]
            intro hcb
            exact hbc hcb.symm

theorem base_name_cons (b : Nat) (rest : List Nat) :
    base_name (b :: rest) =
      if 47 ∈ rest then base_name rest
      else if b = 47 then rest else b :: rest := by
  cases hs : strrchr rest 47 with
  | some i =>
      have h47 : 47 ∈ rest := by
        by_contra hc
        rw [← strrchr_none_iff rest 47] at hc
        rw [hc] at hs
        cases hs
      have hstep : strrchr (b :: rest) 47 = some (i + 1) := by
        unfold strrchr
        rw [hs]
      rw [if_pos h47]
      have h1 : base_name (b :: rest) = rest.drop (i + 1) := by
        unfold base_name
        rw [hstep]
        rfl
      have h2 : base_name rest = rest.drop (i + 1) := by
        unfold base_name
        rw [hs]
      rw [h1, h2]
  | none =>
      have h47 : 47 ∉ rest := (strrchr_none_iff rest 47).mp hs
      rw [if_neg h47]
      have hstep : strrchr (b :: rest) 47 =
          if b = 47 then some 0 else none := by
        unfold strrchr
        rw [hs]
      by_cases hb : b = 47
      · rw [if_pos hb]
        have hsome : strrchr (b :: rest) 47 = some 0 := by
          rw [hstep, if_pos hb]
        unfold base_name
        rw [hsome]
        rfl
      · rw [if_neg hb]
        have hnone : strrchr (b :: rest) 47 = none := by
          rw [hstep, if_neg hb]
        unfold base_name
        rw [hnone]

/-- C10: the entry name the CLI uses for an input path (`base_name`,
src/main.c lines 93–109) is the suffix of the path after its last '/'
byte (47) — the path splits as `pre ++ 47 :: base_name p` with no '/' in
the suffix — and the whole path when it contains no '/'. -/
theorem C10_base_name_suffix (p : List Nat) :
    (47 ∈ p → ∃ pre, p = pre ++ 47 :: base_name p ∧ 47 ∉ base_name p) ∧
    (47 ∉ p → base_name p = p) := by
  induction p with
  | nil =>
      constructor
      · intro h
        simp at h
      · intro _
        rfl
  | cons b rest ih =>
      by_cases h47 : 47 ∈ rest
      · have hbn : base_name (b :: rest) = base_name rest := by
          rw [base_name_cons, if_pos h47]
        constructor
        · intro _
          obtain ⟨pre, hp, hnp⟩ := ih.1 h47
          refine ⟨b :: pre, ?_, ?_⟩
          · rw [hbn, List.cons_append]
            exact congrArg (List.cons b) hp
          · rw [hbn]
            exact hnp
        · intro hni
          exact absurd (List.mem_cons_of_mem b h47) hni
      · by_cases hb : b = 47
        · have hbn : base_name (b :: rest) = rest := by
            rw [base_name_cons, if_neg h47, if_pos hb]
          constructor
          · intro _
            refine ⟨[], ?_, ?_⟩
            · rw [hbn, hb]
              rfl
            · rw [hbn]
              exact h47
          · intro hni
            exfalso
            apply hni
            rw [hb]
            exact List.mem_cons_self 47 rest
        · have hbn : base_name (b :: rest) = b :: rest := by
            rw [base_name_cons, if_neg h47, if_neg hb]
          constructor
          · intro hmem
            exfalso
            rcases List.mem_cons.mp hmem with h1 | h2
            · exact hb h1.symm
            · exact h47 h2
          · intro _
            exact hbn

/-- Witness for C10: the path "d/b" splits around its last slash and its
base name is "b". -/
theorem C10_base_name_suffix_witness :
    (∃ pre, [100, 47, 98] = pre ++ 47 :: base_name [100, 47, 98] ∧
      47 ∉ base_name [100, 47, 98]) ∧ base_name [100, 47, 98] = [98] :=
  ⟨(C10_base_name_suffix [100, 47, 98]).1 (by decide), by decide⟩

/-- C4: CLI exit codes (src/main.c). Usage errors and an unopenable
archive exit 1; `create_or_add_files` with an opened archive always
returns 0, even when per-file failures occur; a failed `addOneFile`
leaves the archive unchanged and the loop `create_or_add_run` continues
over the remaining files. -/
theorem C4_cli_exit_codes :
    (∀ dc fs args, List.length args < 3 → mzip_main dc fs args = 1) ∧
    (∀ fs path, fs path = none →
      list_files fs path = 1 ∧ extract_all fs path = 1) ∧
    (∀ dc files, (create_or_add_files dc none files).2 = 1) ∧
    (∀ dc za files, (create_or_add_files dc (some za) files).2 = 0) ∧
    (∀ dc za f, (addOneFile dc za f).2 = false →
      (addOneFile dc za f).1 = za) ∧
    (∀ dc za f rest, create_or_add_run dc za (f :: rest) =
      create_or_add_run dc (addOneFile dc za f).1 rest) := by
  refine ⟨?_, ?_, fun _ _ => rfl, fun _ _ _ => rfl, addOneFile_fail,
    fun _ _ _ _ => rfl⟩
  · intro dc fs args h
    unfold mzip_main
    rw [if_pos h]
  · intro fs path h
    constructor
    · unfold list_files zip_open_path
      rw [h]
    · unfold extract_all zip_open_path
      rw [h]

/-- Witness for C4 at concrete inputs: a one-argument invocation exits 1,
listing or extracting an unreadable path exits 1, and an unreadable input
file leaves the archive unchanged. -/
theorem C4_cli_exit_codes_witness :
    mzip_main none (fun _ => none) [[109]] = 1 ∧
    list_files (fun _ => none) [97] = 1 ∧
    extract_all (fun _ => none) [97] = 1 ∧
    (addOneFile none { file := [], entries := [] }
      { path := [98], content := none }).1 = { file := [], entries := [] } :=
  ⟨C4_cli_exit_codes.1 none (fun _ => none) [[109]] (by decide),
   (C4_cli_exit_codes.2.1 (fun _ => none) [97] rfl).1,
   (C4_cli_exit_codes.2.1 (fun _ => none) [97] rfl).2,
   C4_cli_exit_codes.2.2.2.2.1 none { file := [], entries := [] }
     { path := [98], content := none } rfl⟩

/-- The filesystem of the C4 counterexample: only the path "g" is
readable. -/
def fs0 : List Nat → Option (List Nat) :=
  fun p => if p = [103] then some [65] else none

/-- The argv of the C4 counterexample: `mzip -c z g b` — create archive
"z" from the readable file "g" and the unreadable file "b". -/
def c4args : List (List Nat) := [[109], [45, 99], [122], [103], [98]]

/-- Counterexample to C4's exit-code clause: during `mzip -c z g b` the
file "b" is unreadable, so a per-file failure occurs in the run
(`addOneFile` returns false on it), yet the process exit code is 0, not
the claimed 1. -/
theorem C4_counterexample :
    fs0 [98] = none ∧
    (addOneFile none
      (create_or_add_run none { file := [], entries := [] }
        [{ path := [103], content := fs0 [103] }])
      { path := [98], content := fs0 [98] }).2 = false ∧
    mzip_main none fs0 c4args = 0 := by
  refine ⟨rfl, rfl, ?_⟩
  decide
